import Mathlib

/-!
Hotspot scoring of bugspots-go.

A shallow embedding of `src/main.go`.  The program walks the commit log of the
last six months (Phase 1, lines 81-114), then folds every materialized commit
into a path-to-score map with a logistic recency weight (Phase 2, lines
116-143), ranks the map by score (lines 145-154) and prints the head of the
ranking (lines 156-161).

Modelling conventions:

* The scoring definitions are written once, over any type `α` that carries the
  arithmetic they use, and are read in two ways.  In exact arithmetic `α` is a
  linearly ordered field, and `ℝ` with `math.Exp` read as `Real.exp` for the
  numeric claims; rounding, overflow and NaN are then not represented.  In
  `float64` arithmetic `α` is the model `F64` of binary64 below, with `math.Exp`
  read as `F64.goExp`; the claims whose truth depends on rounding or overflow
  are settled there.
* `time.Time` is an integer count of nanoseconds, `Time.Sub` is integer
  subtraction (the queried window is six months long, far inside the range where
  Go saturates a `Duration`), and `Duration.Seconds` adds the whole seconds and
  the remaining nanoseconds over `1e9`.
* `math.Exp`, the tree-diff backend and the tree type are parameters.
* The exits of `examples.CheckIfError` are not represented: the commit stream
  is the list of commits the iterator delivers, each with its tree, and every
  diff and every `Action()` call succeeds.
* A Go map is an association list with distinct keys; `range` visits it in list
  order, and every order is some association list.
-/

namespace Bugspots

/-! ## Data model -/

/-- Modelled from the spec: the action of a change entry (`merkletrie.Action`, declared
outside `src/`).  Section 3 of the spec lists Add, Modify, Delete and Rename. -/
inductive Action where
  | Add
  | Modify
  | Delete
  | Rename
deriving DecidableEq, Repr

/-- Modelled from the spec: the tree entry carried by one side of a change (`object.TreeEntry`,
declared outside `src/`): entry name, file mode and object hash. -/
structure TreeEntry where
  Name : String
  Mode : Nat
  Hash : Nat
deriving DecidableEq, Repr

/-- Modelled from the spec: one side of a change (`object.ChangeEntry`, declared outside
`src/`): the full path, the parent tree (a nullable reference) and the tree
entry.  An absent side is the zero value. -/
structure ChangeEntry where
  Name : String
  Tree : Option Nat
  Entry : TreeEntry
deriving DecidableEq, Repr

/-- The zero value `object.ChangeEntry{}` of `getChangeName` (line 44). -/
def ChangeEntry.empty : ChangeEntry := ⟨"", none, ⟨"", 0, 0⟩⟩

/-- Modelled from the spec: a change entry of the tree diff (`object.Change`, declared outside
`src/`): the two sides, and the action that `change.Action()` reports for it.
The spec's invariant that at least one side is present excludes the only case
in which `Action()` reports an error. -/
structure Change where
  From : ChangeEntry
  To : ChangeEntry
  Action : Action
deriving DecidableEq, Repr

/-- The `Fix` record (lines 23-27): first line of the message, committer time in
nanoseconds, and the change set. -/
structure Fix where
  Message : String
  Time : Int
  Changes : List Change
deriving DecidableEq, Repr

/-- The `Spot` record (lines 30-33): a file and its score. -/
structure Spot (α : Type) where
  File : String
  Score : α
deriving DecidableEq, Repr

/-- A commit as delivered by the log iterator: message, `Committer.When` in
nanoseconds, and the tree returned by `commit.Tree()`. -/
structure Commit (Tree : Type) where
  Message : String
  When : Int
  Tree : Tree

/-- The map `hotspots` of type `map[string]float64` (line 121). -/
abbrev Hotspots (α : Type) := List (String × α)

/-- The map read `val, ok := hotspots[name]` (line 138). -/
def mapGet {α : Type} : Hotspots α → String → Option α
  | [], _ => none
  | (k, v) :: rest, name => if k = name then some v else mapGet rest name

/-- The map write `hotspots[name] = v` (line 141). -/
def mapSet {α : Type} : Hotspots α → String → α → Hotspots α
  | [], name, v => [(name, v)]
  | (k, w) :: rest, name, v =>
    if k = name then (k, v) :: rest else (k, w) :: mapSet rest name v

/-! ## getChangeName (lines 43-50) -/

/-- The function `getChangeName`: the name of the from side unless that side is the zero
value, else the name of the to side. -/
def getChangeName (change : Change) : String :=
  if change.From ≠ ChangeEntry.empty then change.From.Name else change.To.Name

/-! ## Phase 1: the log walk (lines 81-114) -/

/-- The loop variables of the log walk (lines 81-83). -/
structure WalkState (Tree : Type) where
  fixes : List Fix
  prevCommit : Option (Commit Tree)
  prevTree : Option Tree

/-- The first line of a commit message, `strings.Split(commit.Message, "\n")[0]`
(line 104). -/
def firstLine (message : String) : String :=
  (message.splitOn "\n").headD ""

/-- One iteration of the log walk for a commit the iterator returned (lines
93-112).  `diff cur prev` is `cur.Diff(prev)`. -/
def walkStep {Tree : Type} (diff : Tree → Option Tree → List Change)
    (s : WalkState Tree) (commit : Commit Tree) : WalkState Tree :=
  let currentTree := commit.Tree
  let s1 : WalkState Tree :=
    if s.prevCommit.isNone then ⟨s.fixes, some commit, some currentTree⟩ else s
  let changes := diff currentTree s1.prevTree
  let msg := firstLine commit.Message
  let fix : Fix := ⟨msg, commit.When, changes⟩
  ⟨s1.fixes ++ [fix], s1.prevCommit, s1.prevTree⟩

/-- The log walk over the whole commit stream (lines 85-114); the stream is the
list of commits `cIter.Next()` returns before it is exhausted. -/
def walk {Tree : Type} (diff : Tree → Option Tree → List Change)
    (stream : List (Commit Tree)) : WalkState Tree :=
  stream.foldl (walkStep diff) ⟨[], none, none⟩

/-! ## A model of `float64`

The values are the rationals that binary64 represents, the two infinities and
NaN.  Every operation computes the exact rational result and rounds it to the
nearest representable value, ties to even, with gradual underflow and overflow
to infinity; each operation rounds on its own (no fused multiply-add).  The sign
of zero is not represented. -/

/-- Modelled from the spec: the `float64` of `Spot.Score` and of the scoring loop (a type of the
Go language, outside `src/`): a finite value, an infinity, or NaN. -/
inductive F64 where
  | finite (value : ℚ)
  | posInf
  | negInf
  | nan
deriving DecidableEq, Repr

namespace F64

/-- The integer nearest to `q`, ties to the even one. -/
def rne (q : ℚ) : Int :=
  let f := ⌊q⌋
  if q - f < 1 / 2 then f
  else if 1 / 2 < q - f then f + 1
  else if f % 2 = 0 then f else f + 1

/-- Rounding of a non-negative rational to binary64: 53 significant bits in the
binade of `q`, the binade of the subnormals from `2^-1022` down, and infinity
from `2^1024` on. -/
def roundPos (q : ℚ) : F64 :=
  let e : Int := max (Int.log 2 q) (-1022)
  let v : ℚ := (rne (q / 2 ^ (e - 52)) : ℚ) * 2 ^ (e - 52)
  if v < 2 ^ (1024 : Int) then finite v else posInf

/-- Negation. -/
def neg : F64 → F64
  | finite v => finite (-v)
  | posInf => negInf
  | negInf => posInf
  | nan => nan

/-- Rounding of a rational to binary64. -/
def round (q : ℚ) : F64 := if 0 ≤ q then roundPos q else neg (roundPos (-q))

/-- Addition. -/
def add : F64 → F64 → F64
  | nan, _ => nan
  | _, nan => nan
  | posInf, negInf => nan
  | negInf, posInf => nan
  | posInf, _ => posInf
  | _, posInf => posInf
  | negInf, _ => negInf
  | _, negInf => negInf
  | finite a, finite b => round (a + b)

/-- Multiplication. -/
def mul : F64 → F64 → F64
  | nan, _ => nan
  | _, nan => nan
  | finite a, finite b => round (a * b)
  | finite a, posInf => if a = 0 then nan else if 0 < a then posInf else negInf
  | finite a, negInf => if a = 0 then nan else if 0 < a then negInf else posInf
  | posInf, finite b => if b = 0 then nan else if 0 < b then posInf else negInf
  | negInf, finite b => if b = 0 then nan else if 0 < b then negInf else posInf
  | posInf, posInf => posInf
  | negInf, negInf => posInf
  | posInf, negInf => negInf
  | negInf, posInf => negInf

/-- Division. -/
def div : F64 → F64 → F64
  | nan, _ => nan
  | _, nan => nan
  | finite a, finite b =>
    if b = 0 then (if a = 0 then nan else if 0 < a then posInf else negInf)
    else round (a / b)
  | finite _, posInf => finite 0
  | finite _, negInf => finite 0
  | posInf, finite b => if 0 ≤ b then posInf else negInf
  | negInf, finite b => if 0 ≤ b then negInf else posInf
  | posInf, posInf => nan
  | posInf, negInf => nan
  | negInf, posInf => nan
  | negInf, negInf => nan

/-- The exponential series `1 + y/k (1 + y/(k+1) (1 + ...))` cut after `n`
factors; from `k = 1` it is the Taylor polynomial of `e^y` of degree `n`. -/
def hornerExp (y : ℚ) : Nat → Nat → ℚ
  | _, 0 => 1
  | k, n + 1 => 1 + y / (k : ℚ) * hornerExp y (k + 1) n

/-- A rational value of `e^x` for `x ≥ 0`: the Taylor polynomial of degree 24 at
`x / 2^s`, where `2^s > x`, raised to the power `2^s`. -/
def expPos (x : ℚ) : ℚ :=
  let s : Nat := (Int.log 2 x + 1).toNat
  (hornerExp (x / 2 ^ s) 1 24) ^ (2 ^ s)

/-- A rational value of `e^x`, within a relative error of `2^-70` for
`|x| ≤ 1024`. -/
def expQ (x : ℚ) : ℚ := if 0 ≤ x then expPos x else 1 / expPos (-x)

/-- Modelled from the spec: the exponential `math.Exp` (Go standard library, outside `src/`),
the `e^(...)` of section 4.3 of the spec: NaN and the infinities as the library
documents them, `+Inf` above its overflow threshold, `0` below its underflow
threshold, and otherwise the binary64 nearest to `e^x`. -/
def goExp : F64 → F64
  | nan => nan
  | posInf => posInf
  | negInf => finite 0
  | finite x =>
    if 709782712893383973096 / 1000000000000000000 < x then posInf
    else if x < -745133219101941108420 / 1000000000000000000 then finite 0
    else round (expQ x)

instance : Zero F64 := ⟨finite 0⟩

instance : One F64 := ⟨finite 1⟩

instance : Add F64 := ⟨add⟩

instance : Neg F64 := ⟨neg⟩

instance : Sub F64 := ⟨fun a b => add a (neg b)⟩

instance : Mul F64 := ⟨mul⟩

instance : Div F64 := ⟨div⟩

instance : IntCast F64 := ⟨fun n => round n⟩

instance (n : Nat) : OfNat F64 n := ⟨round n⟩

end F64

/-! ## Phase 2: scoring (lines 116-143) -/

section Scoring

variable {α : Type}

/-- The value of `Duration.Seconds()` for a duration in nanoseconds: the whole
seconds plus the remaining nanoseconds over `1e9`, both converted to `float64`. -/
def Seconds [Add α] [Div α] [IntCast α] [OfNat α 1000000000] (d : Int) : α :=
  let sec := d.tdiv 1000000000
  let nsec := d.tmod 1000000000
  (sec : α) + (nsec : α) / 1000000000

/-- The normalized recency `t` of a commit (line 124). -/
def normalizedTime [One α] [Add α] [Sub α] [Div α] [IntCast α] [OfNat α 1000000000]
    (currentTime oldestFixTime fixTime : Int) : α :=
  1 - (Seconds (currentTime - fixTime) / Seconds (currentTime - oldestFixTime))

/-- The decay weight `1 / (1 + math.Exp((-12*t)+12))` (line 141). -/
def decayWeight [One α] [Add α] [Mul α] [Neg α] [Div α] [OfNat α 12] (exp : α → α) (t : α) :
    α :=
  1 / (1 + exp ((-12 * t) + 12))

/-- The body of the inner loop for one change (lines 127-141). -/
def scoreChange [Zero α] [One α] [Add α] [Mul α] [Neg α] [Div α] [OfNat α 12]
    (exp : α → α) (t : α) (hotspots : Hotspots α) (change : Change) : Hotspots α :=
  if change.Action = Action.Delete then hotspots
  else
    let name := getChangeName change
    let accumulation : α :=
      match mapGet hotspots name with
      | some val => val
      | none => 0
    mapSet hotspots name (accumulation + decayWeight exp t)

/-- The body of the outer loop for one fix (lines 123-143). -/
def scoreFix [Zero α] [One α] [Add α] [Sub α] [Mul α] [Neg α] [Div α] [IntCast α]
    [OfNat α 12] [OfNat α 1000000000] (exp : α → α) (currentTime oldestFixTime : Int)
    (hotspots : Hotspots α) (fix : Fix) : Hotspots α :=
  let t : α := normalizedTime currentTime oldestFixTime fix.Time
  fix.Changes.foldl (scoreChange exp t) hotspots

/-- The scoring loop over all fixes, from the empty map (lines 121-143). -/
def scoreLoop [Zero α] [One α] [Add α] [Sub α] [Mul α] [Neg α] [Div α] [IntCast α]
    [OfNat α 12] [OfNat α 1000000000] (exp : α → α) (currentTime oldestFixTime : Int)
    (fixes : List Fix) : Hotspots α :=
  fixes.foldl (scoreFix exp currentTime oldestFixTime) []

end Scoring

section Ranking

variable {α : Type} [LinearOrderedField α]

/-! ## Ranking (lines 36-41, 145-154) -/

/-- The copy of the map into a `SpotList` (lines 145-153). -/
def rangeSpots (hotspots : Hotspots α) : List (Spot α) :=
  hotspots.map (fun kv => ⟨kv.1, kv.2⟩)

/-- The order `SpotList.Less` on the elements it compares (line 40). -/
def Less (a b : Spot α) : Bool := decide (a.Score < b.Score)

/-- The wrapper `sort.Reverse`: the order with the arguments of `Less` exchanged. -/
def reverseLess (less : Spot α → Spot α → Bool) (a b : Spot α) : Bool := less b a

/-- Insertion of one element into a list ordered by `less`. -/
def sortInsert (less : Spot α → Spot α → Bool) (x : Spot α) : List (Spot α) → List (Spot α)
  | [] => [x]
  | y :: ys => if less x y then x :: y :: ys else y :: sortInsert less x ys

/-- Modelled from the spec: `sort.Sort` of the Go standard library (outside `src/`), as an
insertion sort driven by the `Less` it is given.  Only what every comparison
sort guarantees (a permutation, ordered by `Less`) is derived from it. -/
def sortSort (less : Spot α → Spot α → Bool) (l : List (Spot α)) : List (Spot α) :=
  l.foldr (sortInsert less) []

/-- The ranked list `spots` after line 154. -/
def rankSpots (hotspots : Hotspots α) : List (Spot α) :=
  sortSort (reverseLess Less) (rangeSpots hotspots)

/-! ## Output (lines 156-161) -/

/-- The print loop from index `i` on: the spots for which a score line is
written.  The line is written before the test `i > 100`. -/
def printLoop (i : Nat) : List (Spot α) → List (Spot α)
  | [] => []
  | spot :: rest => spot :: (if i > 100 then [] else printLoop (i + 1) rest)

/-! ## The whole program -/

/-- How a run ends abnormally: the runtime panic of `fixes[len(fixes)-1]` on an
empty slice (line 116). -/
inductive Failure where
  | indexOutOfRange
deriving DecidableEq, Repr

/-- What a completed run has computed. -/
structure Output (α : Type) where
  oldestFixTime : Int
  hotspots : Hotspots α
  spots : List (Spot α)
  printed : List (Spot α)
  count : Nat

/-- The body of `main` from the log walk on (lines 81-163). -/
def run {Tree : Type} (exp : α → α) (diff : Tree → Option Tree → List Change)
    (currentTime : Int) (stream : List (Commit Tree)) : Except Failure (Output α) :=
  let fixes := (walk diff stream).fixes
  match fixes.getLast? with
  | none => Except.error Failure.indexOutOfRange
  | some last =>
    let oldestFixTime := last.Time
    let hotspots := scoreLoop exp currentTime oldestFixTime fixes
    let spots := rankSpots hotspots
    Except.ok ⟨oldestFixTime, hotspots, spots, printLoop 0 spots, spots.length⟩

end Ranking

/-! ## The score the specification assigns to a path -/

section SpecScore

variable {α : Type}

/-- A change entry counts for path `p`: its action is not Delete and its
resolved name is `p`. -/
def countsFor (p : String) (change : Change) : Bool :=
  decide (change.Action ≠ Action.Delete) && decide (getChangeName change = p)

/-- The weights a list of change entries adds to path `p` when each counting
entry adds `w`. -/
def entryWeights (p : String) (w : α) (changes : List Change) : List α :=
  (changes.filter (countsFor p)).map (fun _ => w)

/-- The specification's summands for path `p`: over every commit and every
counting change entry of it, the decay weight of the commit. -/
def specWeights [One α] [Add α] [Sub α] [Mul α] [Neg α] [Div α] [IntCast α] [OfNat α 12]
    [OfNat α 1000000000] (exp : α → α) (currentTime oldestFixTime : Int) (fixes : List Fix)
    (p : String) : List α :=
  fixes.flatMap (fun fix =>
    entryWeights p (decayWeight exp (normalizedTime currentTime oldestFixTime fix.Time))
      fix.Changes)

/-- The specification's mapping: a path without summands is absent, any other
path carries the sum of its summands. -/
def specScore [DecidableEq α] [Zero α] [One α] [Add α] [Sub α] [Mul α] [Neg α] [Div α]
    [IntCast α] [OfNat α 12] [OfNat α 1000000000] (exp : α → α) (currentTime oldestFixTime : Int)
    (fixes : List Fix) (p : String) : Option α :=
  if specWeights exp currentTime oldestFixTime fixes p = [] then none
  else some (specWeights exp currentTime oldestFixTime fixes p).sum

/-- Folding a list of weights into an optional running total, as the lookup
and write of lines 137-141 do. -/
def addAll [Zero α] [Add α] (o : Option α) : List α → Option α
  | [] => o
  | w :: ws => addAll (some (o.getD 0 + w)) ws

end SpecScore

/-! ## Sample inputs -/

/-- A present side of a change for the file at `name`. -/
def entryAt (name : String) : ChangeEntry := ⟨name, some 1, ⟨name, 33188, 1⟩⟩

/-- A rename of `old.txt` to `new.txt`. -/
def renameChange : Change := ⟨entryAt "old.txt", entryAt "new.txt", Action.Rename⟩

/-- A modification of the file at `name`. -/
def modifyChange (name : String) : Change := ⟨entryAt name, entryAt name, Action.Modify⟩

/-- An addition of the file at `name`: the from side is absent. -/
def addChange (name : String) : Change := ⟨ChangeEntry.empty, entryAt name, Action.Add⟩

/-- A deletion of the file at `name`: the to side is absent. -/
def deleteChange (name : String) : Change := ⟨entryAt name, ChangeEntry.empty, Action.Delete⟩

/-- Three materialized commits at 100, 50 and 0 seconds. -/
def sampleFixes : List Fix :=
  [⟨"rename and add", 100000000000, [renameChange, addChange "b", deleteChange "c"]⟩,
   ⟨"touch two files", 50000000000, [modifyChange "b", modifyChange "z"]⟩,
   ⟨"first", 0, [modifyChange "b"]⟩]

/-- A tree-diff backend on trees named by numbers: a tree against itself has
no changes, any other pair differs in `a.go`. -/
def sampleDiff (cur : Nat) (prev : Option Nat) : List Change :=
  if prev = some cur then [] else [modifyChange "a.go"]

/-- A commit at 5 seconds with a two-line message. -/
def sampleCommit : Commit Nat := ⟨"fix parser\n\ndetails", 5000000000, 7⟩

/-- Three commits of a 100-day window that touch `A`: the newest at day 100 and
two at day 25. -/
def floatFixes : List Fix :=
  [⟨"newest", 8640000000000000, [modifyChange "A"]⟩,
   ⟨"day 25, first", 2160000000000000, [modifyChange "A"]⟩,
   ⟨"day 25, second", 2160000000000000, [modifyChange "A"]⟩]

/-- The same three commits with the newest scored last. -/
def floatFixesPermuted : List Fix :=
  [⟨"day 25, first", 2160000000000000, [modifyChange "A"]⟩,
   ⟨"day 25, second", 2160000000000000, [modifyChange "A"]⟩,
   ⟨"newest", 8640000000000000, [modifyChange "A"]⟩]

/-- Three scored paths. -/
def sampleHotspots : Hotspots ℚ := [("a.go", 1 / 3), ("b.go", 2), ("c.go", 1 / 3)]

/-! ## Lemmas on the map model -/

section MapLemmas

variable {α : Type}

theorem mapGet_mapSet_same (m : Hotspots α) (k : String) (v : α) :
    mapGet (mapSet m k v) k = some v := by
  induction m with
  | nil => simp [mapSet, mapGet]
  | cons kv rest ih =>
    obtain ⟨k', w⟩ := kv
    by_cases h : k' = k
    · simp [mapSet, mapGet, h]
    · simp [mapSet, mapGet, h, ih]

theorem mapGet_mapSet_other (m : Hotspots α) (k q : String) (v : α) (hq : q ≠ k) :
    mapGet (mapSet m k v) q = mapGet m q := by
  induction m with
  | nil => simp [mapSet, mapGet, Ne.symm hq]
  | cons kv rest ih =>
    obtain ⟨k', w⟩ := kv
    by_cases h : k' = k
    · subst h
      simp [mapSet, mapGet, Ne.symm hq]
    · by_cases h2 : k' = q
      · subst h2
        simp [mapSet, mapGet, hq]
      · simp [mapSet, mapGet, h, h2, ih]

theorem keys_mapSet (m : Hotspots α) (k : String) (v : α) :
    (mapSet m k v).map Prod.fst =
      if k ∈ m.map Prod.fst then m.map Prod.fst else m.map Prod.fst ++ [k] := by
  induction m with
  | nil => simp [mapSet]
  | cons kv rest ih =>
    obtain ⟨k', w⟩ := kv
    by_cases h : k' = k
    · simp [mapSet, h]
    · have h' : ¬ k = k' := fun e => h e.symm
      by_cases hm : k ∈ rest.map Prod.fst
      · simp only [mapSet, h, if_false, List.map_cons, ih, hm, if_true, List.mem_cons, or_true]
      · simp only [mapSet, h, if_false, List.map_cons, ih, hm, List.mem_cons, h', or_self,
          List.cons_append]

theorem nodup_keys_mapSet (m : Hotspots α) (k : String) (v : α)
    (h : (m.map Prod.fst).Nodup) : ((mapSet m k v).map Prod.fst).Nodup := by
  rw [keys_mapSet]
  split
  · exact h
  · rename_i hk
    rw [List.nodup_append]
    refine ⟨h, List.nodup_singleton k, ?_⟩
    intro a ha hb
    simp only [List.mem_singleton] at hb
    exact hk (hb ▸ ha)

theorem mapGet_eq_none_iff (m : Hotspots α) (k : String) :
    mapGet m k = none ↔ k ∉ m.map Prod.fst := by
  induction m with
  | nil => simp [mapGet]
  | cons kv rest ih =>
    obtain ⟨k', w⟩ := kv
    by_cases h : k' = k
    · simp [mapGet, h]
    · have h' : ¬ k = k' := fun e => h e.symm
      simp [mapGet, h, h', ih]

theorem mapGet_eq_some_iff (m : Hotspots α) (hm : (m.map Prod.fst).Nodup) (k : String)
    (v : α) : mapGet m k = some v ↔ (k, v) ∈ m := by
  induction m with
  | nil => simp [mapGet]
  | cons kv rest ih =>
    obtain ⟨k', w⟩ := kv
    simp only [List.map_cons, List.nodup_cons] at hm
    by_cases h : k' = k
    · subst h
      simp only [mapGet, if_true, Option.some.injEq, List.mem_cons, Prod.mk.injEq, true_and]
      constructor
      · intro e
        exact Or.inl e.symm
      · rintro (e | e)
        · exact e.symm
        · exact absurd (List.mem_map_of_mem Prod.fst e) hm.1
    · have h' : ¬ k = k' := fun e => h e.symm
      simp [mapGet, h, h', ih hm.2]

theorem entryWeights_modifyChange (p : String) (w : α) :
    entryWeights p w [modifyChange p] = [w] := by
  simp [entryWeights, countsFor, modifyChange, getChangeName, entryAt, ChangeEntry.empty]

end MapLemmas

/-! ## Lemmas on the scoring loop -/

section AddAllLemmas

variable {α : Type} [Zero α] [Add α]

theorem addAll_append (o : Option α) (l₁ l₂ : List α) :
    addAll o (l₁ ++ l₂) = addAll (addAll o l₁) l₂ := by
  induction l₁ generalizing o with
  | nil => rfl
  | cons w ws ih => simp [addAll, ih]

theorem addAll_some_ne_none (a : α) (l : List α) : addAll (some a) l ≠ none := by
  induction l generalizing a with
  | nil => simp [addAll]
  | cons w ws ih => exact ih _

theorem addAll_none_eq_none_iff (l : List α) : addAll none l = none ↔ l = [] := by
  cases l with
  | nil => simp [addAll]
  | cons w ws => simp [addAll, addAll_some_ne_none]

end AddAllLemmas

section ChangeLemmas

variable {α : Type} [Zero α] [One α] [Add α] [Mul α] [Neg α] [Div α] [OfNat α 12]

theorem mapGet_scoreChange (exp : α → α) (t : α) (m : Hotspots α) (change : Change)
    (p : String) :
    mapGet (scoreChange exp t m change) p =
      if countsFor p change then some ((mapGet m p).getD 0 + decayWeight exp t)
      else mapGet m p := by
  unfold scoreChange countsFor
  by_cases hd : change.Action = Action.Delete
  · simp [hd]
  · by_cases hn : getChangeName change = p
    · subst hn
      simp only [hd, if_false, mapGet_mapSet_same, ne_eq, not_false_eq_true, decide_True,
        Bool.and_self, if_true, Option.some.injEq]
      cases mapGet m (getChangeName change) <;> rfl
    · have hp : p ≠ getChangeName change := fun e => hn e.symm
      simp [hd, hn, mapGet_mapSet_other _ _ _ _ hp]

theorem mapGet_foldl_scoreChange (exp : α → α) (t : α) (changes : List Change)
    (m : Hotspots α) (p : String) :
    mapGet (changes.foldl (scoreChange exp t) m) p =
      addAll (mapGet m p) (entryWeights p (decayWeight exp t) changes) := by
  induction changes generalizing m with
  | nil => rfl
  | cons c cs ih =>
    rw [List.foldl_cons, ih, mapGet_scoreChange]
    by_cases hc : countsFor p c = true
    · simp [entryWeights, List.filter_cons, hc, addAll]
    · simp [entryWeights, List.filter_cons, hc]

theorem nodup_keys_scoreChange (exp : α → α) (t : α) (m : Hotspots α) (change : Change)
    (h : (m.map Prod.fst).Nodup) : ((scoreChange exp t m change).map Prod.fst).Nodup := by
  unfold scoreChange
  split
  · exact h
  · exact nodup_keys_mapSet _ _ _ h

end ChangeLemmas

section WeightLemmas

variable {α : Type} [One α] [Add α] [Sub α] [Mul α] [Neg α] [Div α] [IntCast α]
  [OfNat α 12] [OfNat α 1000000000]

theorem specWeights_perm (exp : α → α) (currentTime oldestFixTime : Int)
    (fixes fixes' : List Fix) (h : fixes.Perm fixes') (p : String) :
    (specWeights exp currentTime oldestFixTime fixes p).Perm
      (specWeights exp currentTime oldestFixTime fixes' p) := by
  unfold specWeights
  exact h.flatMap_right _

theorem specWeights_three (exp : α → α) (now oldestTime : Int) (p m₁ m₂ m₃ : String)
    (t₁ t₂ t₃ : Int) :
    specWeights exp now oldestTime
        [⟨m₁, t₁, [modifyChange p]⟩, ⟨m₂, t₂, [modifyChange p]⟩, ⟨m₃, t₃, [modifyChange p]⟩] p =
      [decayWeight exp (normalizedTime now oldestTime t₁),
        decayWeight exp (normalizedTime now oldestTime t₂),
        decayWeight exp (normalizedTime now oldestTime t₃)] := by
  simp [specWeights, entryWeights_modifyChange]

end WeightLemmas

section LoopLemmas

variable {α : Type} [Zero α] [One α] [Add α] [Sub α] [Mul α] [Neg α] [Div α] [IntCast α]
  [OfNat α 12] [OfNat α 1000000000]

theorem mapGet_foldl_scoreFix (exp : α → α) (currentTime oldestFixTime : Int)
    (fixes : List Fix) (m : Hotspots α) (p : String) :
    mapGet (fixes.foldl (scoreFix exp currentTime oldestFixTime) m) p =
      addAll (mapGet m p) (specWeights exp currentTime oldestFixTime fixes p) := by
  induction fixes generalizing m with
  | nil => rfl
  | cons f fs ih =>
    rw [List.foldl_cons, ih]
    simp only [scoreFix, mapGet_foldl_scoreChange, specWeights, List.flatMap_cons,
      addAll_append]

theorem mapGet_scoreLoop_addAll (exp : α → α) (currentTime oldestFixTime : Int)
    (fixes : List Fix) (p : String) :
    mapGet (scoreLoop exp currentTime oldestFixTime fixes) p =
      addAll none (specWeights exp currentTime oldestFixTime fixes p) := by
  unfold scoreLoop
  rw [mapGet_foldl_scoreFix]
  rfl

theorem nodup_keys_scoreFix (exp : α → α) (currentTime oldestFixTime : Int)
    (fix : Fix) (m : Hotspots α) (h : (m.map Prod.fst).Nodup) :
    ((scoreFix exp currentTime oldestFixTime m fix).map Prod.fst).Nodup := by
  unfold scoreFix
  generalize fix.Changes = changes
  induction changes generalizing m with
  | nil => exact h
  | cons c cs ih => exact ih _ (nodup_keys_scoreChange _ _ _ _ h)

theorem nodup_keys_scoreLoop (exp : α → α) (currentTime oldestFixTime : Int)
    (fixes : List Fix) :
    ((scoreLoop exp currentTime oldestFixTime fixes : Hotspots α).map Prod.fst).Nodup := by
  unfold scoreLoop
  have key : ∀ (m : Hotspots α), (m.map Prod.fst).Nodup →
      ((fixes.foldl (scoreFix exp currentTime oldestFixTime) m).map Prod.fst).Nodup := by
    induction fixes with
    | nil => intro m h; exact h
    | cons f fs ih => intro m h; exact ih _ (nodup_keys_scoreFix _ _ _ _ _ h)
  exact key [] List.nodup_nil

theorem keys_scoreLoop_perm (exp : α → α) (now oldestTime : Int)
    (fixes permuted : List Fix) (hperm : permuted.Perm fixes) :
    ((scoreLoop exp now oldestTime permuted).map Prod.fst).Perm
      ((scoreLoop exp now oldestTime fixes).map Prod.fst) := by
  rw [List.perm_ext_iff_of_nodup (nodup_keys_scoreLoop exp now oldestTime permuted)
    (nodup_keys_scoreLoop exp now oldestTime fixes)]
  intro p
  have hw := specWeights_perm exp now oldestTime permuted fixes hperm p
  have hnil : specWeights exp now oldestTime permuted p = [] ↔
      specWeights exp now oldestTime fixes p = [] :=
    ⟨fun e => List.Perm.eq_nil (e ▸ hw.symm), fun e => List.Perm.eq_nil (e ▸ hw)⟩
  have h1 := mapGet_eq_none_iff (scoreLoop exp now oldestTime permuted) p
  have h2 := mapGet_eq_none_iff (scoreLoop exp now oldestTime fixes) p
  rw [mapGet_scoreLoop_addAll, addAll_none_eq_none_iff] at h1 h2
  constructor
  · intro hp
    by_contra hq
    exact (h1.mp (hnil.mpr (h2.mpr hq))) hp
  · intro hp
    by_contra hq
    exact (h2.mp (hnil.mp (h1.mpr hq))) hp

end LoopLemmas


section ScoringLemmas

variable {α : Type} [LinearOrderedField α]

theorem addAll_eq (o : Option α) (l : List α) :
    addAll o l = if l = [] then o else some (o.getD 0 + l.sum) := by
  induction l generalizing o with
  | nil => simp [addAll]
  | cons w ws ih =>
    rw [addAll, ih]
    by_cases h : ws = []
    · simp [h]
    · simp [h, add_assoc]

theorem mapGet_scoreLoop (exp : α → α) (currentTime oldestFixTime : Int)
    (fixes : List Fix) (p : String) :
    mapGet (scoreLoop exp currentTime oldestFixTime fixes) p =
      specScore exp currentTime oldestFixTime fixes p := by
  unfold scoreLoop specScore
  rw [mapGet_foldl_scoreFix, addAll_eq]
  simp [mapGet]

end ScoringLemmas

/-! ## Accumulation -/

section Accumulation

variable {α : Type} [LinearOrderedField α]

/-- C1: for every list of materialized commits, every window with positive span
and every path `p`, the score stored for `p` is the sum, over every commit and
every non-Delete change entry of it whose resolved name is `p`, of the full
decay weight of that commit; `p` is a key of the map exactly when such an entry
exists; and a Delete entry leaves the whole map unchanged. -/
theorem score_is_sum_of_commit_weights (exp : α → α) (now oldestTime : Int)
    (_hspan : 0 < now - oldestTime) (fixes : List Fix) (p : String) :
    (mapGet (scoreLoop exp now oldestTime fixes) p =
      (let summands : List α := fixes.flatMap (fun fix =>
          (fix.Changes.filter (fun change =>
            decide (change.Action ≠ Action.Delete) && decide (getChangeName change = p))).map
            (fun _ => decayWeight exp (normalizedTime now oldestTime fix.Time)))
       if summands = [] then none else some summands.sum)) ∧
    (p ∈ (scoreLoop exp now oldestTime fixes).map Prod.fst ↔
      ∃ fix ∈ fixes, ∃ change ∈ fix.Changes,
        change.Action ≠ Action.Delete ∧ getChangeName change = p) ∧
    (∀ (t : α) (m : Hotspots α) (change : Change),
      change.Action = Action.Delete → scoreChange exp t m change = m) := by
  have hget := mapGet_scoreLoop exp now oldestTime fixes p
  refine ⟨hget, ?_, ?_⟩
  · have hnone := mapGet_eq_none_iff (scoreLoop exp now oldestTime fixes) p
    rw [hget] at hnone
    have hempty : specWeights exp now oldestTime fixes p = [] ↔
        ¬ ∃ fix ∈ fixes, ∃ change ∈ fix.Changes,
          change.Action ≠ Action.Delete ∧ getChangeName change = p := by
      simp only [specWeights, entryWeights, countsFor, List.flatMap_eq_nil_iff,
        List.map_eq_nil_iff, List.filter_eq_nil_iff, Bool.and_eq_true, decide_eq_true_eq]
      push_neg
      rfl
    constructor
    · intro hp
      by_contra hno
      have : specScore exp now oldestTime fixes p = none := by
        simp only [specScore, hempty.mpr hno, if_true]
      exact (hnone.mp this) hp
    · intro hex
      by_contra hp
      have hne : specWeights exp now oldestTime fixes p ≠ [] := fun e => hempty.mp e hex
      have : specScore exp now oldestTime fixes p ≠ none := by
        simp [specScore, hne]
      exact this (hnone.mpr hp)
  · intro t m change hd
    simp [scoreChange, hd]

/-- Witness for C1 on three sample commits. -/
theorem score_is_sum_of_commit_weights_witness :
    (0 : Int) < 100000000000 - 0 ∧
    mapGet (scoreLoop Real.exp 100000000000 0 sampleFixes) "b" =
      (let summands : List ℝ := sampleFixes.flatMap (fun fix =>
          (fix.Changes.filter (fun change =>
            decide (change.Action ≠ Action.Delete) && decide (getChangeName change = "b"))).map
            (fun _ => decayWeight Real.exp (normalizedTime 100000000000 0 fix.Time)))
       if summands = [] then none else some summands.sum) :=
  ⟨by decide,
    (score_is_sum_of_commit_weights Real.exp 100000000000 0 (by decide) sampleFixes "b").1⟩

/-- C5: a change entry whose action is not Delete adds the weight to the from
name when the from side is present and to the to name otherwise, and changes no
other path; so a rename whose two names differ adds the weight to the old name
and leaves the new name as it was. -/
theorem weight_goes_to_from_name (exp : α → α) (t : α) (m : Hotspots α)
    (change : Change) (hact : change.Action ≠ Action.Delete) :
    (∀ name : String,
      name = (if change.From ≠ ChangeEntry.empty then change.From.Name
        else change.To.Name) →
      mapGet (scoreChange exp t m change) name =
          some ((mapGet m name).getD 0 + decayWeight exp t) ∧
        ∀ q : String, q ≠ name → mapGet (scoreChange exp t m change) q = mapGet m q) ∧
    (change.From ≠ ChangeEntry.empty → change.To.Name ≠ change.From.Name →
      mapGet (scoreChange exp t m change) change.From.Name =
          some ((mapGet m change.From.Name).getD 0 + decayWeight exp t) ∧
        mapGet (scoreChange exp t m change) change.To.Name = mapGet m change.To.Name) := by
  have hstep : ∀ q : String, mapGet (scoreChange exp t m change) q =
      if getChangeName change = q then some ((mapGet m q).getD 0 + decayWeight exp t)
      else mapGet m q := by
    intro q
    rw [mapGet_scoreChange]
    simp [countsFor, hact]
  constructor
  · intro name hname
    have hres : getChangeName change = name := by rw [hname]; rfl
    constructor
    · rw [hstep, if_pos hres]
    · intro q hq
      rw [hstep, if_neg (fun e => hq (e.symm.trans hres))]
  · intro hfrom hne
    have hres : getChangeName change = change.From.Name := by
      simp [getChangeName, hfrom]
    constructor
    · rw [hstep, if_pos hres]
    · rw [hstep, if_neg (fun e => hne (e.symm.trans hres))]

/-- Witness for C5: the rename of `old.txt` to `new.txt` scored into the empty
map. -/
theorem weight_goes_to_from_name_witness :
    renameChange.Action ≠ Action.Delete ∧
    mapGet (scoreChange Real.exp 1 [] renameChange) "old.txt" =
      some ((mapGet ([] : Hotspots ℝ) "old.txt").getD 0 + decayWeight Real.exp 1) ∧
    mapGet (scoreChange Real.exp 1 [] renameChange) "new.txt" = none :=
  ⟨by decide,
    ((weight_goes_to_from_name Real.exp 1 [] renameChange (by decide)).2
      (by decide) (by decide)).1,
    ((weight_goes_to_from_name Real.exp 1 [] renameChange (by decide)).2
      (by decide) (by decide)).2⟩

theorem scoreLoop_perm_exact (exp : α → α) (now oldestTime : Int)
    (fixes permuted : List Fix)
    (hperm : permuted.Perm fixes) :
    (∀ p : String, mapGet (scoreLoop exp now oldestTime permuted) p =
      mapGet (scoreLoop exp now oldestTime fixes) p) ∧
    (scoreLoop exp now oldestTime permuted).Perm (scoreLoop exp now oldestTime fixes) := by
  have hget : ∀ p : String, mapGet (scoreLoop exp now oldestTime permuted) p =
      mapGet (scoreLoop exp now oldestTime fixes) p := by
    intro p
    rw [mapGet_scoreLoop, mapGet_scoreLoop]
    have hw := specWeights_perm exp now oldestTime permuted fixes hperm p
    unfold specScore
    rw [hw.sum_eq]
    by_cases h : specWeights exp now oldestTime fixes p = []
    · have h' : specWeights exp now oldestTime permuted p = [] := by
        rw [h] at hw
        exact List.Perm.eq_nil hw
      simp [h, h']
    · have h' : specWeights exp now oldestTime permuted p ≠ [] := by
        intro e
        rw [e] at hw
        exact h (List.Perm.eq_nil hw.symm)
      simp [h, h']
  refine ⟨hget, ?_⟩
  have hnd1 := nodup_keys_scoreLoop exp now oldestTime permuted
  have hnd2 := nodup_keys_scoreLoop exp now oldestTime fixes
  rw [List.perm_ext_iff_of_nodup (List.Nodup.of_map _ hnd1) (List.Nodup.of_map _ hnd2)]
  rintro ⟨k, v⟩
  rw [← mapGet_eq_some_iff _ hnd1, ← mapGet_eq_some_iff _ hnd2, hget]

end Accumulation

/-! ## The decay weight over the reals -/

section Decay

theorem decayWeight_pos (t : ℝ) : 0 < decayWeight Real.exp t := by
  unfold decayWeight
  have h := Real.exp_pos ((-12 * t) + 12)
  positivity

theorem decayWeight_lt_one (t : ℝ) : decayWeight Real.exp t < 1 := by
  unfold decayWeight
  have h := Real.exp_pos ((-12 * t) + 12)
  rw [div_lt_one (by linarith)]
  linarith

theorem decayWeight_strictMono (t₁ t₂ : ℝ) (h : t₁ < t₂) :
    decayWeight Real.exp t₁ < decayWeight Real.exp t₂ := by
  unfold decayWeight
  have h₂ := Real.exp_pos ((-12 * t₂) + 12)
  have hexp : Real.exp ((-12 * t₂) + 12) < Real.exp ((-12 * t₁) + 12) :=
    Real.exp_lt_exp.mpr (by linarith)
  exact one_div_lt_one_div_of_lt (by linarith) (by linarith)

theorem Seconds_eq_div (d : Int) : (Seconds d : ℝ) = (d : ℝ) / 1000000000 := by
  unfold Seconds
  have h : (d : ℝ) = ((1000000000 * d.tdiv 1000000000 + d.tmod 1000000000 : Int) : ℝ) := by
    rw [Int.tdiv_add_tmod]
  rw [h]
  push_cast
  field_simp
  ring

theorem normalizedTime_eq (now oldestTime commitTime : Int) (hspan : 0 < now - oldestTime) :
    (normalizedTime now oldestTime commitTime : ℝ) =
      1 - ((now - commitTime : Int) : ℝ) / ((now - oldestTime : Int) : ℝ) := by
  unfold normalizedTime
  rw [Seconds_eq_div, Seconds_eq_div]
  have hs : (0 : ℝ) < ((now - oldestTime : Int) : ℝ) := by exact_mod_cast hspan
  field_simp

theorem normalizedTime_mono (now oldestTime c₁ c₂ : Int) (hspan : 0 < now - oldestTime)
    (hc : c₁ ≤ c₂) :
    (normalizedTime now oldestTime c₁ : ℝ) ≤ normalizedTime now oldestTime c₂ := by
  rw [normalizedTime_eq _ _ _ hspan, normalizedTime_eq _ _ _ hspan]
  have hs : (0 : ℝ) < ((now - oldestTime : Int) : ℝ) := by exact_mod_cast hspan
  have hage : ((now - c₂ : Int) : ℝ) ≤ ((now - c₁ : Int) : ℝ) := by
    exact_mod_cast (by omega : now - c₂ ≤ now - c₁)
  have := div_le_div_of_nonneg_right hage hs.le
  linarith

theorem normalizedTime_strictMono (now oldestTime c₁ c₂ : Int) (hspan : 0 < now - oldestTime)
    (hc : c₁ < c₂) :
    (normalizedTime now oldestTime c₁ : ℝ) < normalizedTime now oldestTime c₂ := by
  rw [normalizedTime_eq _ _ _ hspan, normalizedTime_eq _ _ _ hspan]
  have hs : (0 : ℝ) < ((now - oldestTime : Int) : ℝ) := by exact_mod_cast hspan
  have hage : ((now - c₂ : Int) : ℝ) < ((now - c₁ : Int) : ℝ) := by
    exact_mod_cast (by omega : now - c₂ < now - c₁)
  have := div_lt_div_of_pos_right hage hs
  linarith

/-- C3: the decay weight is strictly increasing in `t`; hence, for a fixed
window with positive span, a commit with a later committer time never receives
a smaller weight than one with an earlier time (and a strictly later commit
receives a strictly larger one). -/
theorem decayWeight_monotone_in_recency (t₁ t₂ : ℝ) (ht : t₁ < t₂)
    (now oldestTime c₁ c₂ : Int) (hspan : 0 < now - oldestTime) (hc : c₁ ≤ c₂) :
    decayWeight Real.exp t₁ < decayWeight Real.exp t₂ ∧
    decayWeight Real.exp (normalizedTime now oldestTime c₁) ≤
      decayWeight Real.exp (normalizedTime now oldestTime c₂) ∧
    (c₁ < c₂ → decayWeight Real.exp (normalizedTime now oldestTime c₁) <
      decayWeight Real.exp (normalizedTime now oldestTime c₂)) := by
  refine ⟨decayWeight_strictMono t₁ t₂ ht, ?_, ?_⟩
  · rcases (normalizedTime_mono now oldestTime c₁ c₂ hspan hc).lt_or_eq with h | h
    · exact (decayWeight_strictMono _ _ h).le
    · rw [h]
  · intro hlt
    exact decayWeight_strictMono _ _ (normalizedTime_strictMono now oldestTime c₁ c₂ hspan hlt)

/-- Witness for C3: `t` equal to 0 and 1, and commits at 0 and 50 seconds of a
100 second window. -/
theorem decayWeight_monotone_in_recency_witness :
    (0 : ℝ) < 1 ∧ (0 : Int) < 100000000000 - 0 ∧ (0 : Int) ≤ 50000000000 ∧
    decayWeight Real.exp 0 < decayWeight Real.exp 1 ∧
    decayWeight Real.exp (normalizedTime 100000000000 0 0) ≤
      decayWeight Real.exp (normalizedTime 100000000000 0 50000000000) :=
  ⟨one_pos, by decide, by decide,
    (decayWeight_monotone_in_recency 0 1 one_pos 100000000000 0 0 50000000000
      (by decide) (by decide)).1,
    (decayWeight_monotone_in_recency 0 1 one_pos 100000000000 0 0 50000000000
      (by decide) (by decide)).2.1⟩

theorem exp_twelve_bounds : (162601 : ℝ) < Real.exp 12 ∧ Real.exp 12 < 162865 := by
  have hpow : Real.exp 12 = Real.exp 1 ^ 12 := by
    rw [← Real.exp_nat_mul]
    norm_num
  have hlo := Real.exp_one_gt_d9
  have hhi := Real.exp_one_lt_d9
  have hpos : (0 : ℝ) ≤ 2.7182818283 := by norm_num
  have hepos : (0 : ℝ) ≤ Real.exp 1 := (Real.exp_pos 1).le
  rw [hpow]
  constructor
  · calc (162601 : ℝ) < (2.7182818283 : ℝ) ^ 12 := by norm_num
      _ ≤ Real.exp 1 ^ 12 := pow_le_pow_left₀ hpos hlo.le 12
  · calc Real.exp 1 ^ 12 ≤ (2.7182818286 : ℝ) ^ 12 := pow_le_pow_left₀ hepos hhi.le 12
      _ < 162865 := by norm_num

theorem oldest_weight_bounds :
    (0.00000614 : ℝ) < 1 / (1 + Real.exp 12) ∧ 1 / (1 + Real.exp 12) < 0.00000615 := by
  obtain ⟨hlo, hhi⟩ := exp_twelve_bounds
  have hpos : (0 : ℝ) < 1 + Real.exp 12 := by linarith
  constructor
  · rw [lt_div_iff₀ hpos]
    linarith
  · rw [div_lt_iff₀ hpos]
    linarith

/-- C8: in a window whose span is 100 days, a commit at the oldest time has
`t = 0` and weight `1/(1+e^12)`, a commit at `now` has `t = 1` and weight `1/2`;
when the newest and the oldest commit each carry exactly one counting entry for
path `p`, a Modify, the score of `p` is `1/2 + 1/(1+e^12)`, which is within
`1e-6` of `0.500006`, and `1/(1+e^12)` lies between `6.14e-6` and `6.15e-6`. -/
theorem hundred_day_window_scores (now oldestTime : Int)
    (hspan : now - oldestTime = 8640000000000000) (p : String) (newest oldest : Fix)
    (hnewest : newest.Time = now) (holdest : oldest.Time = oldestTime)
    (hnewestA : (newest.Changes.filter (countsFor p)).map Change.Action = [Action.Modify])
    (holdestA : (oldest.Changes.filter (countsFor p)).map Change.Action = [Action.Modify]) :
    (normalizedTime now oldestTime oldestTime : ℝ) = 0 ∧
    decayWeight Real.exp (normalizedTime now oldestTime oldestTime) =
      1 / (1 + Real.exp 12) ∧
    (normalizedTime now oldestTime now : ℝ) = 1 ∧
    decayWeight Real.exp (normalizedTime now oldestTime now) = 1 / 2 ∧
    mapGet (scoreLoop Real.exp now oldestTime [newest, oldest]) p =
      some (1 / 2 + 1 / (1 + Real.exp 12)) ∧
    |1 / 2 + 1 / (1 + Real.exp 12) - 0.500006| < 0.000001 ∧
    (0.00000614 : ℝ) < 1 / (1 + Real.exp 12) ∧ 1 / (1 + Real.exp 12) < 0.00000615 := by
  have hpos : 0 < now - oldestTime := by omega
  have ht0 : (normalizedTime now oldestTime oldestTime : ℝ) = 0 := by
    rw [normalizedTime_eq _ _ _ hpos, hspan]
    norm_num
  have ht1 : (normalizedTime now oldestTime now : ℝ) = 1 := by
    rw [normalizedTime_eq _ _ _ hpos]
    simp
  have hw0 : decayWeight Real.exp (normalizedTime now oldestTime oldestTime) =
      1 / (1 + Real.exp 12) := by
    rw [ht0]
    simp [decayWeight]
  have hw1 : decayWeight Real.exp (normalizedTime now oldestTime now) = 1 / 2 := by
    rw [ht1]
    norm_num [decayWeight]
  obtain ⟨hlo, hhi⟩ := oldest_weight_bounds
  have hlen : ∀ f : Fix, (f.Changes.filter (countsFor p)).map Change.Action = [Action.Modify] →
      ∀ w : ℝ, entryWeights p w f.Changes = [w] := by
    intro f hf w
    unfold entryWeights
    have h1 : (f.Changes.filter (countsFor p)).length = 1 := by
      have := congrArg List.length hf
      simpa using this
    obtain ⟨c, hc⟩ := List.length_eq_one.mp h1
    rw [hc]
    rfl
  refine ⟨ht0, hw0, ht1, hw1, ?_, ?_, hlo, hhi⟩
  · rw [mapGet_scoreLoop]
    unfold specScore specWeights
    simp only [List.flatMap_cons, List.flatMap_nil, List.append_nil, hlen newest hnewestA,
      hlen oldest holdestA, hnewest, holdest, hw0, hw1]
    simp
  · rw [abs_lt]
    constructor <;> linarith

/-- Witness for C8: the newest commit modifies `A`; the oldest modifies `A` and
carries a Delete entry for it as well. -/
theorem hundred_day_window_scores_witness :
    (8640000000000000 : Int) - 0 = 8640000000000000 ∧
    mapGet (scoreLoop Real.exp 8640000000000000 0
      [⟨"newest", 8640000000000000, [modifyChange "A"]⟩,
       ⟨"oldest", 0, [modifyChange "A", deleteChange "A"]⟩]) "A" =
      some (1 / 2 + 1 / (1 + Real.exp 12)) :=
  ⟨by decide,
    (hundred_day_window_scores 8640000000000000 0 (by decide) "A"
      ⟨"newest", 8640000000000000, [modifyChange "A"]⟩
      ⟨"oldest", 0, [modifyChange "A", deleteChange "A"]⟩
      rfl rfl (by decide) (by decide)).2.2.2.2.1⟩

end Decay

/-! ## Ranking and output -/

section SortLemmas

variable {α : Type}

theorem sortInsert_perm (less : Spot α → Spot α → Bool) (x : Spot α) (l : List (Spot α)) :
    (sortInsert less x l).Perm (x :: l) := by
  induction l with
  | nil => exact List.Perm.refl _
  | cons y ys ih =>
    unfold sortInsert
    split
    · exact List.Perm.refl _
    · exact (List.Perm.cons y ih).trans (List.Perm.swap x y ys)

theorem sortSort_perm (less : Spot α → Spot α → Bool) (l : List (Spot α)) :
    (sortSort less l).Perm l := by
  induction l with
  | nil => exact List.Perm.refl _
  | cons x xs ih =>
    have h : sortSort less (x :: xs) = sortInsert less x (sortSort less xs) := rfl
    rw [h]
    exact (sortInsert_perm less x _).trans (List.Perm.cons x ih)

theorem printLoop_eq_take (i : Nat) (hi : i ≤ 101) (spots : List (Spot α)) :
    printLoop i spots = spots.take (102 - i) := by
  induction spots generalizing i with
  | nil => simp [printLoop]
  | cons s rest ih =>
    unfold printLoop
    by_cases h : i > 100
    · have h101 : i = 101 := by omega
      subst h101
      simp
    · have hsucc : 102 - i = (102 - (i + 1)) + 1 := by omega
      rw [if_neg h, ih (i + 1) (by omega), hsucc, List.take_succ_cons]

end SortLemmas

section Ranking

variable {α : Type} [LinearOrderedField α]

theorem sortInsert_descending (x : Spot α) (l : List (Spot α))
    (h : l.Pairwise (fun a b => b.Score ≤ a.Score)) :
    (sortInsert (reverseLess Less) x l).Pairwise (fun a b => b.Score ≤ a.Score) := by
  induction l with
  | nil => simp [sortInsert]
  | cons y ys ih =>
    rw [List.pairwise_cons] at h
    unfold sortInsert
    by_cases hxy : reverseLess Less x y = true
    · rw [if_pos hxy]
      have hlt : y.Score < x.Score := by simpa [reverseLess, Less] using hxy
      refine List.pairwise_cons.mpr ⟨?_, List.pairwise_cons.mpr h⟩
      intro b hb
      rcases List.mem_cons.mp hb with e | hb'
      · rw [e]; exact hlt.le
      · exact (h.1 b hb').trans hlt.le
    · rw [if_neg hxy]
      have hle : x.Score ≤ y.Score := by simpa [reverseLess, Less] using hxy
      refine List.pairwise_cons.mpr ⟨?_, ih h.2⟩
      intro b hb
      rcases List.mem_cons.mp ((sortInsert_perm _ x ys).subset hb) with e | hb'
      · rw [e]; exact hle
      · exact h.1 b hb'

theorem sortSort_descending (l : List (Spot α)) :
    (sortSort (reverseLess Less) l).Pairwise (fun a b => b.Score ≤ a.Score) := by
  induction l with
  | nil => exact List.Pairwise.nil
  | cons x xs ih =>
    have h : sortSort (reverseLess Less) (x :: xs) =
        sortInsert (reverseLess Less) x (sortSort (reverseLess Less) xs) := rfl
    rw [h]
    exact sortInsert_descending x _ ih

/-- C6: for every path-to-score map (distinct keys), the ranked list is a
permutation of the map's entries, one per key: its length is the number of
keys, no file occurs twice, and an entry is in it exactly when the map binds
that path to that score; and it is ordered descending by score, the score at
position `i` being at least the score at any later position `j`. -/
theorem ranking_is_descending_permutation (m : Hotspots α)
    (hkeys : (m.map Prod.fst).Nodup) :
    (rankSpots m).Perm (m.map (fun kv => (⟨kv.1, kv.2⟩ : Spot α))) ∧
    (rankSpots m).length = (m.map Prod.fst).length ∧
    ((rankSpots m).map Spot.File).Nodup ∧
    (∀ (k : String) (v : α), (⟨k, v⟩ : Spot α) ∈ rankSpots m ↔ mapGet m k = some v) ∧
    ∀ (i j : Nat) (_hij : i < j) (hj : j < (rankSpots m).length),
      (rankSpots m)[j].Score ≤ (rankSpots m)[i].Score := by
  have hperm : (rankSpots m).Perm (rangeSpots m) := sortSort_perm _ _
  have hfiles : (rangeSpots m).map Spot.File = m.map Prod.fst := by
    simp [rangeSpots, List.map_map, Function.comp_def]
  refine ⟨hperm, ?_, ?_, ?_, ?_⟩
  · rw [hperm.length_eq]
    simp [rangeSpots]
  · rw [(hperm.map Spot.File).nodup_iff, hfiles]
    exact hkeys
  · intro k v
    rw [hperm.mem_iff, mapGet_eq_some_iff m hkeys]
    simp only [rangeSpots, List.mem_map]
    constructor
    · rintro ⟨⟨k', v'⟩, hmem, heq⟩
      simp only [Spot.mk.injEq] at heq
      obtain ⟨rfl, rfl⟩ := heq
      exact hmem
    · intro hmem
      exact ⟨(k, v), hmem, rfl⟩
  · intro i j hij hj
    have hsorted : (rankSpots m).Pairwise (fun a b => b.Score ≤ a.Score) :=
      sortSort_descending _
    exact List.pairwise_iff_getElem.mp hsorted i j (by omega) hj hij

/-- Witness for C6: a map of three paths, two of them with equal scores. -/
theorem ranking_is_descending_permutation_witness :
    (sampleHotspots.map Prod.fst).Nodup ∧
    (rankSpots sampleHotspots).Perm
      (sampleHotspots.map (fun kv => (⟨kv.1, kv.2⟩ : Spot ℚ))) :=
  ⟨by decide, (ranking_is_descending_permutation sampleHotspots (by decide)).1⟩

end Ranking

section PrintLoop

variable {α : Type}

/-- C9: for every ranked list of `n` spots the print loop writes exactly
`min n 102` score lines, for the first `min n 102` entries in rank order. -/
theorem print_loop_emits_first_102 (spots : List (Spot α)) :
    printLoop 0 spots = spots.take (min spots.length 102) ∧
    (printLoop 0 spots).length = min spots.length 102 := by
  have h := printLoop_eq_take 0 (by omega) spots
  have htake : spots.take (min spots.length 102) = spots.take 102 := by
    rw [List.take_eq_take]
    omega
  constructor
  · rw [h, htake]
  · rw [h, List.length_take]
    omega

end PrintLoop

/-! ## The log walk and the whole run -/

section Walk

variable {Tree : Type}

theorem foldl_walkStep_of_prev (diff : Tree → Option Tree → List Change) (c : Commit Tree)
    (tree : Tree) (cs : List (Commit Tree)) (fixes : List Fix) :
    cs.foldl (walkStep diff) ⟨fixes, some c, some tree⟩ =
      ⟨fixes ++ cs.map (fun c' =>
          (⟨firstLine c'.Message, c'.When, diff c'.Tree (some tree)⟩ : Fix)),
        some c, some tree⟩ := by
  induction cs generalizing fixes with
  | nil => simp
  | cons d ds ih =>
    rw [List.foldl_cons]
    have hstep : walkStep diff ⟨fixes, some c, some tree⟩ d =
        ⟨fixes ++ [⟨firstLine d.Message, d.When, diff d.Tree (some tree)⟩], some c,
          some tree⟩ := rfl
    rw [hstep, ih]
    simp

theorem walk_cons (diff : Tree → Option Tree → List Change) (c : Commit Tree)
    (cs : List (Commit Tree)) :
    walk diff (c :: cs) =
      ⟨(⟨firstLine c.Message, c.When, diff c.Tree (some c.Tree)⟩ : Fix) ::
          cs.map (fun c' =>
            (⟨firstLine c'.Message, c'.When, diff c'.Tree (some c.Tree)⟩ : Fix)),
        some c, some c.Tree⟩ := by
  unfold walk
  rw [List.foldl_cons]
  have hstep : walkStep diff ⟨[], none, none⟩ c =
      ⟨[⟨firstLine c.Message, c.When, diff c.Tree (some c.Tree)⟩], some c, some c.Tree⟩ :=
    rfl
  rw [hstep, foldl_walkStep_of_prev]
  rfl

variable {α : Type} [LinearOrderedField α]

/-- C10: the reference tree is the tree of the first commit of the stream and
stays so, and every commit, the first included, is diffed against it; so, when
the diff of a tree against itself is empty, the first commit of a non-empty
stream has an empty change set, the final map is the one scored from the second
and later commits alone, and a stream of exactly one commit yields the empty
map. -/
theorem newest_commit_contributes_nothing (diff : Tree → Option Tree → List Change)
    (hself : ∀ t : Tree, diff t (some t) = []) (c : Commit Tree) (cs : List (Commit Tree))
    (exp : α → α) (now oldestTime : Int) :
    (walk diff (c :: cs)).prevTree = some c.Tree ∧
    (walk diff (c :: cs)).fixes =
      (⟨firstLine c.Message, c.When, []⟩ : Fix) ::
        cs.map (fun c' =>
          (⟨firstLine c'.Message, c'.When, diff c'.Tree (some c.Tree)⟩ : Fix)) ∧
    scoreLoop exp now oldestTime (walk diff (c :: cs)).fixes =
      scoreLoop exp now oldestTime (cs.map (fun c' =>
        (⟨firstLine c'.Message, c'.When, diff c'.Tree (some c.Tree)⟩ : Fix))) ∧
    scoreLoop exp now oldestTime (walk diff [c]).fixes = [] := by
  have hfixes : ∀ ds : List (Commit Tree), (walk diff (c :: ds)).fixes =
      (⟨firstLine c.Message, c.When, []⟩ : Fix) ::
        ds.map (fun c' =>
          (⟨firstLine c'.Message, c'.When, diff c'.Tree (some c.Tree)⟩ : Fix)) := by
    intro ds
    rw [walk_cons, hself]
  refine ⟨?_, hfixes cs, ?_, ?_⟩
  · rw [walk_cons]
  · rw [hfixes cs]
    rfl
  · rw [hfixes []]
    rfl

/-- Witness for C10: two commits over the sample backend. -/
theorem newest_commit_contributes_nothing_witness :
    (∀ t : Nat, sampleDiff t (some t) = []) ∧
    scoreLoop Real.exp 10000000000 0 (walk sampleDiff [sampleCommit, ⟨"older", 0, 3⟩]).fixes =
      scoreLoop Real.exp 10000000000 0
        ([⟨"older", 0, 3⟩].map (fun c' : Commit Nat =>
          (⟨firstLine c'.Message, c'.When, sampleDiff c'.Tree (some sampleCommit.Tree)⟩ :
            Fix))) :=
  ⟨fun t => by simp [sampleDiff],
    (newest_commit_contributes_nothing sampleDiff (fun t => by simp [sampleDiff])
      sampleCommit [⟨"older", 0, 3⟩] Real.exp 10000000000 0).2.2.1⟩

/-- C4, as stated, fails: a window of exactly one commit does not make the run
fail; it completes with an empty map and an empty ranking. -/
theorem single_commit_run_completes :
    [sampleCommit].length < 2 ∧
    run Real.exp sampleDiff 10000000000 [sampleCommit] =
      Except.ok ⟨5000000000, [], [], [], 0⟩ :=
  ⟨by decide, rfl⟩

/-- C4, amended: on an empty commit stream the run aborts with the index
failure of line 116, before the scoring loop, and yields no map or ranking; on
a stream of exactly one commit, the self-diff being empty, the run does not
fail: the commit has no change entry, so no weight is computed, the window's
oldest time is that commit's time, and the map, the ranking and the printed
list are empty. -/
theorem runs_on_fewer_than_two_commits (diff : Tree → Option Tree → List Change)
    (hself : ∀ t : Tree, diff t (some t) = []) (exp : α → α) (now : Int) :
    run exp diff now ([] : List (Commit Tree)) = Except.error Failure.indexOutOfRange ∧
    ∀ c : Commit Tree,
      (walk diff [c]).fixes = [⟨firstLine c.Message, c.When, []⟩] ∧
      run exp diff now [c] = Except.ok ⟨c.When, [], [], [], 0⟩ := by
  refine ⟨rfl, ?_⟩
  intro c
  have hfixes : (walk diff [c]).fixes = [⟨firstLine c.Message, c.When, []⟩] := by
    rw [walk_cons, hself]
    rfl
  refine ⟨hfixes, ?_⟩
  unfold run
  rw [hfixes]
  rfl

/-- Witness for the amended C4 over the sample backend. -/
theorem runs_on_fewer_than_two_commits_witness :
    (∀ t : Nat, sampleDiff t (some t) = []) ∧
    run Real.exp sampleDiff 10000000000 ([] : List (Commit Nat)) =
      Except.error Failure.indexOutOfRange ∧
    run Real.exp sampleDiff 10000000000 [sampleCommit] =
      Except.ok ⟨sampleCommit.When, [], [], [], 0⟩ :=
  ⟨fun t => by simp [sampleDiff],
    (runs_on_fewer_than_two_commits sampleDiff (fun t => by simp [sampleDiff])
      Real.exp 10000000000).1,
    ((runs_on_fewer_than_two_commits sampleDiff (fun t => by simp [sampleDiff])
      Real.exp 10000000000).2 sampleCommit).2⟩

end Walk

/-! ## Lemmas on the float64 model -/

namespace F64

theorem log_two_eq (q : ℚ) (e : ℤ) (h1 : (2 : ℚ) ^ e ≤ q) (h2 : q < (2 : ℚ) ^ (e + 1)) :
    Int.log 2 q = e := by
  have hq : 0 < q := lt_of_lt_of_le (zpow_pos (by norm_num) e) h1
  have hb : 1 < 2 := by norm_num
  have h1' : e ≤ Int.log 2 q := by
    rw [← Int.zpow_le_iff_le_log hb hq]
    simpa using h1
  have h2' : Int.log 2 q < e + 1 := by
    rw [← Int.lt_zpow_iff_log_lt hb hq]
    simpa using h2
  omega

theorem zpow_log_le (q : ℚ) (hq : 0 < q) : (2 : ℚ) ^ Int.log 2 q ≤ q := by
  simpa using Int.zpow_log_le_self (b := 2) (by norm_num) hq

theorem lt_zpow_log_succ (q : ℚ) : q < (2 : ℚ) ^ (Int.log 2 q + 1) := by
  simpa using Int.lt_zpow_succ_log_self (b := 2) (by norm_num) q

theorem rne_lower (q : ℚ) (n : ℤ) (h : (n : ℚ) ≤ q) : n ≤ rne q := by
  have hf : n ≤ ⌊q⌋ := Int.le_floor.mpr h
  unfold rne
  simp only
  split_ifs <;> omega

theorem rne_upper (q : ℚ) (n : ℤ) (h : q ≤ (n : ℚ)) : rne q ≤ n := by
  have hf : ⌊q⌋ ≤ n := by
    have h1 : ((⌊q⌋ : ℤ) : ℚ) ≤ n := (Int.floor_le q).trans h
    exact_mod_cast h1
  unfold rne
  simp only
  split_ifs with h1 h2 h3
  · exact hf
  · have hlt : ((⌊q⌋ : ℤ) : ℚ) < n := by
      have := Int.floor_le q
      linarith
    have : ⌊q⌋ < n := by exact_mod_cast hlt
    omega
  · exact hf
  · have hlt : ((⌊q⌋ : ℤ) : ℚ) < n := by
      have := Int.floor_le q
      linarith
    have : ⌊q⌋ < n := by exact_mod_cast hlt
    omega

theorem rne_eq (q : ℚ) (m : ℤ) (h1 : (m : ℚ) - 1 / 2 < q) (h2 : q < m + 1 / 2) :
    rne q = m := by
  unfold rne
  have hf1 : m - 1 ≤ ⌊q⌋ := by
    rw [Int.le_floor]
    push_cast
    linarith
  have hf2 : ⌊q⌋ ≤ m := by
    have : ⌊q⌋ < m + 1 := by
      rw [Int.floor_lt]
      push_cast
      linarith
    omega
  rcases (by omega : ⌊q⌋ = m - 1 ∨ ⌊q⌋ = m) with h | h
  · have hc : ((⌊q⌋ : ℤ) : ℚ) = m - 1 := by rw [h]; push_cast; ring
    simp only [hc]
    rw [if_neg (by linarith), if_pos (by linarith)]
    omega
  · have hc : ((⌊q⌋ : ℤ) : ℚ) = m := by rw [h]
    simp only [hc]
    rw [if_pos (by linarith)]
    exact h

theorem roundPos_eq (q v : ℚ) (e m : ℤ) (he : -1022 ≤ e) (h1 : (2 : ℚ) ^ e ≤ q)
    (h2 : q < (2 : ℚ) ^ (e + 1)) (hm1 : (m : ℚ) - 1 / 2 < q / 2 ^ (e - 52))
    (hm2 : q / 2 ^ (e - 52) < m + 1 / 2) (hv : (m : ℚ) * 2 ^ (e - 52) = v)
    (hov : v < 2 ^ (1024 : ℤ)) : roundPos q = finite v := by
  unfold roundPos
  simp only [log_two_eq q e h1 h2, max_eq_left he, rne_eq _ m hm1 hm2, hv, if_pos hov]

theorem round_eq (q v : ℚ) (e m : ℤ) (he : -1022 ≤ e) (h1 : (2 : ℚ) ^ e ≤ q)
    (h2 : q < (2 : ℚ) ^ (e + 1)) (hm1 : (m : ℚ) - 1 / 2 < q / 2 ^ (e - 52))
    (hm2 : q / 2 ^ (e - 52) < m + 1 / 2) (hv : (m : ℚ) * 2 ^ (e - 52) = v)
    (hov : v < 2 ^ (1024 : ℤ)) : round q = finite v := by
  have hq : 0 ≤ q := le_trans (zpow_pos (by norm_num) e).le h1
  unfold round
  rw [if_pos hq]
  exact roundPos_eq q v e m he h1 h2 hm1 hm2 hv hov

theorem round_neg_eq (q v : ℚ) (e m : ℤ) (he : -1022 ≤ e) (h1 : (2 : ℚ) ^ e ≤ -q)
    (h2 : -q < (2 : ℚ) ^ (e + 1)) (hm1 : (m : ℚ) - 1 / 2 < -q / 2 ^ (e - 52))
    (hm2 : -q / 2 ^ (e - 52) < m + 1 / 2) (hv : (m : ℚ) * 2 ^ (e - 52) = -v)
    (hov : -v < 2 ^ (1024 : ℤ)) : round q = finite v := by
  have hq : ¬ 0 ≤ q := by
    have := lt_of_lt_of_le (zpow_pos (by norm_num : (0 : ℚ) < 2) e) h1
    linarith
  unfold round
  rw [if_neg hq, roundPos_eq (-q) (-v) e m he h1 h2 hm1 hm2 hv hov]
  simp [neg]

theorem roundPos_zero : roundPos 0 = finite 0 := by
  unfold roundPos
  have h : rne (0 : ℚ) = 0 := rne_eq 0 0 (by norm_num) (by norm_num)
  simp only [zero_div, h, Int.cast_zero, zero_mul]
  rw [if_pos (by positivity)]

theorem round_zero : round 0 = finite 0 := by
  unfold round
  rw [if_pos le_rfl, roundPos_zero]

theorem two_zpow_pos (e : ℤ) : (0 : ℚ) < 2 ^ e := zpow_pos (by norm_num) e

theorem two_zpow_sub (a b : ℤ) : (2 : ℚ) ^ (a - b) = 2 ^ a / 2 ^ b :=
  zpow_sub₀ (by norm_num) a b

theorem two_zpow_toNat (d : ℤ) (hd : 0 ≤ d) : (2 : ℚ) ^ d = (((2 : ℤ) ^ d.toNat : ℤ) : ℚ) := by
  have h : d = (d.toNat : ℤ) := (Int.toNat_of_nonneg hd).symm
  conv_lhs => rw [h]
  rw [zpow_natCast]
  push_cast
  rfl

theorem roundPos_nonneg (q : ℚ) (hq : 0 ≤ q) :
    roundPos q = posInf ∨ ∃ v : ℚ, roundPos q = finite v ∧ 0 ≤ v := by
  unfold roundPos
  simp only
  split_ifs with hov
  · right
    refine ⟨_, rfl, ?_⟩
    have hn : (0 : ℤ) ≤ rne (q / 2 ^ (max (Int.log 2 q) (-1022) - 52)) :=
      rne_lower _ 0 (by
        have := two_zpow_pos (max (Int.log 2 q) (-1022) - 52)
        simp only [Int.cast_zero]
        positivity)
    have hn' : (0 : ℚ) ≤ (rne (q / 2 ^ (max (Int.log 2 q) (-1022) - 52)) : ℚ) := by
      exact_mod_cast hn
    exact mul_nonneg hn' (two_zpow_pos _).le
  · left
    rfl

theorem roundPos_ge (q : ℚ) (j : ℤ) (hj : -1022 ≤ j) (h : (2 : ℚ) ^ j ≤ q) :
    roundPos q = posInf ∨ ∃ v : ℚ, roundPos q = finite v ∧ (2 : ℚ) ^ j ≤ v := by
  have hq : 0 < q := lt_of_lt_of_le (two_zpow_pos j) h
  have hjl : j ≤ Int.log 2 q := by
    rw [← Int.zpow_le_iff_le_log (by norm_num) hq]
    simpa using h
  have he : max (Int.log 2 q) (-1022) = Int.log 2 q := max_eq_left (by omega)
  unfold roundPos
  simp only [he]
  split_ifs with hov
  · right
    refine ⟨_, rfl, ?_⟩
    have hulp := two_zpow_pos (Int.log 2 q - 52)
    have hscaled : (((2 : ℤ) ^ 52 : ℤ) : ℚ) ≤ q / 2 ^ (Int.log 2 q - 52) := by
      rw [le_div_iff₀ hulp, two_zpow_sub]
      have h52 : (2 : ℚ) ^ (52 : ℤ) = (((2 : ℤ) ^ 52 : ℤ) : ℚ) := by norm_num
      rw [h52]
      have hlog := zpow_log_le q hq
      have hpos52 : (0 : ℚ) < (((2 : ℤ) ^ 52 : ℤ) : ℚ) := by norm_num
      rw [mul_div_cancel₀ _ hpos52.ne']
      exact hlog
    have hn := rne_lower _ _ hscaled
    have hn' : (((2 : ℤ) ^ 52 : ℤ) : ℚ) ≤ (rne (q / 2 ^ (Int.log 2 q - 52)) : ℚ) := by
      exact_mod_cast hn
    calc (2 : ℚ) ^ j ≤ 2 ^ Int.log 2 q := zpow_le_zpow_right₀ (by norm_num) hjl
      _ = (((2 : ℤ) ^ 52 : ℤ) : ℚ) * 2 ^ (Int.log 2 q - 52) := by
          rw [two_zpow_sub]
          norm_num
          ring
      _ ≤ (rne (q / 2 ^ (Int.log 2 q - 52)) : ℚ) * 2 ^ (Int.log 2 q - 52) :=
          mul_le_mul_of_nonneg_right hn' hulp.le
  · left
    rfl

theorem roundPos_le (q : ℚ) (k : ℤ) (hk : -1022 ≤ k) (hk' : k < 1024) (hq : 0 ≤ q)
    (h : q ≤ (2 : ℚ) ^ k) : ∃ v : ℚ, roundPos q = finite v ∧ 0 ≤ v ∧ v ≤ (2 : ℚ) ^ k := by
  rcases hq.eq_or_lt with h0 | hpos
  · rw [← h0, roundPos_zero]
    exact ⟨0, rfl, le_rfl, (two_zpow_pos k).le⟩
  · have hlk : Int.log 2 q ≤ k := by
      have h1 : (2 : ℚ) ^ Int.log 2 q ≤ 2 ^ k := (zpow_log_le q hpos).trans h
      exact (zpow_le_zpow_iff_right₀ (by norm_num)).mp h1
    have hek : max (Int.log 2 q) (-1022) ≤ k := max_le hlk hk
    have hval : (rne (q / 2 ^ (max (Int.log 2 q) (-1022) - 52)) : ℚ) *
        2 ^ (max (Int.log 2 q) (-1022) - 52) ≤ 2 ^ k := by
      generalize max (Int.log 2 q) (-1022) = e at hek
      have hulp := two_zpow_pos (e - 52)
      have hd : 0 ≤ k - (e - 52) := by omega
      have hscaled : q / 2 ^ (e - 52) ≤ (((2 : ℤ) ^ (k - (e - 52)).toNat : ℤ) : ℚ) := by
        rw [← two_zpow_toNat _ hd, div_le_iff₀ hulp, ← zpow_add₀ (by norm_num)]
        simpa using h
      have hn := rne_upper _ _ hscaled
      have hn' : (rne (q / 2 ^ (e - 52)) : ℚ) ≤ (((2 : ℤ) ^ (k - (e - 52)).toNat : ℤ) : ℚ) := by
        exact_mod_cast hn
      calc (rne (q / 2 ^ (e - 52)) : ℚ) * 2 ^ (e - 52)
          ≤ (((2 : ℤ) ^ (k - (e - 52)).toNat : ℤ) : ℚ) * 2 ^ (e - 52) :=
            mul_le_mul_of_nonneg_right hn' hulp.le
        _ = 2 ^ k := by
            rw [← two_zpow_toNat _ hd, ← zpow_add₀ (by norm_num)]
            congr 1
            omega
    have hfin : (2 : ℚ) ^ k < 2 ^ (1024 : ℤ) := zpow_lt_zpow_right₀ (by norm_num) hk'
    rcases roundPos_nonneg q hq with hinf | ⟨v, hv, hv0⟩
    · exfalso
      unfold roundPos at hinf
      simp only at hinf
      rw [if_pos (lt_of_le_of_lt hval hfin)] at hinf
      exact F64.noConfusion hinf
    · refine ⟨v, hv, hv0, ?_⟩
      unfold roundPos at hv
      simp only at hv
      rw [if_pos (lt_of_le_of_lt hval hfin)] at hv
      have hveq := F64.finite.inj hv
      rw [← hveq]
      exact hval

theorem roundPos_between (q : ℚ) (j k : ℤ) (hj : -1022 ≤ j) (hk : k < 1024)
    (h1 : (2 : ℚ) ^ j ≤ q) (h2 : q ≤ (2 : ℚ) ^ k) :
    ∃ v : ℚ, roundPos q = finite v ∧ (2 : ℚ) ^ j ≤ v ∧ v ≤ (2 : ℚ) ^ k := by
  have hq : 0 ≤ q := (two_zpow_pos j).le.trans h1
  have hjk : j ≤ k := (zpow_le_zpow_iff_right₀ (by norm_num : (1 : ℚ) < 2)).mp (h1.trans h2)
  obtain ⟨v, hv, _, hvk⟩ := roundPos_le q k (by omega) hk hq h2
  rcases roundPos_ge q j hj h1 with hinf | ⟨v', hv', hvj⟩
  · rw [hv] at hinf
    exact F64.noConfusion hinf
  · rw [hv] at hv'
    have := F64.finite.inj hv'
    exact ⟨v, hv, this ▸ hvj, hvk⟩

theorem round_abs_le (q : ℚ) (k : ℤ) (hk : -1022 ≤ k) (hk' : k < 1024)
    (h : |q| ≤ (2 : ℚ) ^ k) : ∃ v : ℚ, round q = finite v ∧ |v| ≤ (2 : ℚ) ^ k := by
  unfold round
  by_cases hq : 0 ≤ q
  · rw [if_pos hq]
    rw [abs_of_nonneg hq] at h
    obtain ⟨v, hv, hv0, hvk⟩ := roundPos_le q k hk hk' hq h
    exact ⟨v, hv, by rwa [abs_of_nonneg hv0]⟩
  · rw [if_neg hq]
    have hneg : 0 ≤ -q := by linarith
    rw [abs_of_neg (by linarith)] at h
    obtain ⟨v, hv, hv0, hvk⟩ := roundPos_le (-q) k hk hk' hneg h
    refine ⟨-v, by rw [hv]; rfl, ?_⟩
    rwa [abs_neg, abs_of_nonneg hv0]

theorem round_between (q : ℚ) (j k : ℤ) (hj : -1022 ≤ j) (hk : k < 1024)
    (h1 : (2 : ℚ) ^ j ≤ q) (h2 : q ≤ (2 : ℚ) ^ k) :
    ∃ v : ℚ, round q = finite v ∧ (2 : ℚ) ^ j ≤ v ∧ v ≤ (2 : ℚ) ^ k := by
  have hq : 0 ≤ q := (two_zpow_pos j).le.trans h1
  unfold round
  rw [if_pos hq]
  exact roundPos_between q j k hj hk h1 h2

theorem intCast_eq (n : ℤ) : ((n : ℤ) : F64) = round (n : ℚ) := rfl

theorem add_finite (a b : ℚ) : (finite a + finite b : F64) = round (a + b) := rfl

theorem sub_finite (a b : ℚ) : (finite a - finite b : F64) = round (a + -b) := rfl

theorem mul_finite (a b : ℚ) : (finite a * finite b : F64) = round (a * b) := rfl

theorem neg_finite (a : ℚ) : (-(finite a) : F64) = finite (-a) := rfl

theorem div_finite (a b : ℚ) (hb : b ≠ 0) : (finite a / finite b : F64) = round (a / b) := by
  show div (finite a) (finite b) = round (a / b)
  simp [div, hb]

theorem zero_eq : (@OfNat.ofNat F64 0 Zero.toOfNat0) = finite 0 := rfl

theorem one_eq : (@OfNat.ofNat F64 1 One.toOfNat1) = finite 1 := rfl

theorem twelve_eq : (OfNat.ofNat 12 : F64) = finite 12 := by
  show round ((12 : ℕ) : ℚ) = finite 12
  exact round_eq _ 12 3 (12 * 2 ^ 49) (by norm_num) (by norm_num) (by norm_num) (by norm_num)
    (by norm_num) (by norm_num) (by norm_num)

theorem billion_eq : (OfNat.ofNat 1000000000 : F64) = finite 1000000000 := by
  show round ((1000000000 : ℕ) : ℚ) = finite 1000000000
  exact round_eq _ 1000000000 29 (1000000000 * 2 ^ 23) (by norm_num) (by norm_num)
    (by norm_num) (by norm_num) (by norm_num) (by norm_num) (by norm_num)

theorem tdiv_tmod_bounds (d : ℤ) (h1 : -(2 : ℤ) ^ 63 ≤ d) (h2 : d < (2 : ℤ) ^ 63) :
    (-(2 : ℤ) ^ 34 ≤ d.tdiv 1000000000 ∧ d.tdiv 1000000000 ≤ (2 : ℤ) ^ 34) ∧
    (-(2 : ℤ) ^ 30 ≤ d.tmod 1000000000 ∧ d.tmod 1000000000 ≤ (2 : ℤ) ^ 30) := by
  rcases le_or_lt 0 d with hd | hd
  · rw [Int.tdiv_eq_ediv hd (by norm_num), Int.tmod_eq_emod hd (by norm_num)]
    norm_num at h1 h2 ⊢
    omega
  · have hd' : 0 ≤ -d := by omega
    have e1 : d.tdiv 1000000000 = -((-d) / 1000000000) := by
      rw [← Int.tdiv_eq_ediv hd' (by norm_num), Int.neg_tdiv, neg_neg]
    have ht := Int.tdiv_add_tmod d 1000000000
    rw [e1] at ht ⊢
    generalize d.tmod 1000000000 = r at ht ⊢
    norm_num at h1 h2 ⊢
    omega

theorem tdiv_tmod_pos (d : ℤ) (h1 : 0 < d) (h2 : d < (2 : ℤ) ^ 63) :
    0 ≤ d.tdiv 1000000000 ∧ 0 ≤ d.tmod 1000000000 ∧
    (1 ≤ d.tdiv 1000000000 ∨ 1 ≤ d.tmod 1000000000) := by
  rw [Int.tdiv_eq_ediv h1.le (by norm_num), Int.tmod_eq_emod h1.le (by norm_num)]
  omega

theorem Seconds_bounded (d : ℤ) (h1 : -(2 : ℤ) ^ 63 ≤ d) (h2 : d < (2 : ℤ) ^ 63) :
    ∃ u : ℚ, (Seconds d : F64) = finite u ∧ |u| ≤ (2 : ℚ) ^ (35 : ℤ) := by
  obtain ⟨⟨hs1, hs2⟩, hn1, hn2⟩ := tdiv_tmod_bounds d h1 h2
  have hsec : |((d.tdiv 1000000000 : ℤ) : ℚ)| ≤ (2 : ℚ) ^ (34 : ℤ) := by
    rw [abs_le]
    constructor
    · have : ((-(2 : ℤ) ^ 34 : ℤ) : ℚ) ≤ ((d.tdiv 1000000000 : ℤ) : ℚ) := by exact_mod_cast hs1
      norm_num at this ⊢
      linarith
    · have : ((d.tdiv 1000000000 : ℤ) : ℚ) ≤ (((2 : ℤ) ^ 34 : ℤ) : ℚ) := by exact_mod_cast hs2
      norm_num at this ⊢
      linarith
  have hnsec : |((d.tmod 1000000000 : ℤ) : ℚ)| ≤ (2 : ℚ) ^ (30 : ℤ) := by
    rw [abs_le]
    constructor
    · have : ((-(2 : ℤ) ^ 30 : ℤ) : ℚ) ≤ ((d.tmod 1000000000 : ℤ) : ℚ) := by exact_mod_cast hn1
      norm_num at this ⊢
      linarith
    · have : ((d.tmod 1000000000 : ℤ) : ℚ) ≤ (((2 : ℤ) ^ 30 : ℤ) : ℚ) := by exact_mod_cast hn2
      norm_num at this ⊢
      linarith
  obtain ⟨a, ha, hab⟩ := round_abs_le _ 34 (by norm_num) (by norm_num) hsec
  obtain ⟨b, hb, hbb⟩ := round_abs_le _ 30 (by norm_num) (by norm_num) hnsec
  have hr : |b / 1000000000| ≤ (2 : ℚ) ^ (1 : ℤ) := by
    rw [abs_div, div_le_iff₀ (by norm_num)]
    norm_num at hbb ⊢
    linarith
  obtain ⟨r, hr', hrb⟩ := round_abs_le _ 1 (by norm_num) (by norm_num) hr
  have hsum : |a + r| ≤ (2 : ℚ) ^ (35 : ℤ) := by
    have := abs_add a r
    norm_num at hab hrb ⊢
    linarith
  obtain ⟨u, hu, hub⟩ := round_abs_le _ 35 (by norm_num) (by norm_num) hsum
  refine ⟨u, ?_, hub⟩
  unfold Seconds
  simp only [intCast_eq, ha, hb, billion_eq]
  rw [div_finite _ _ (by norm_num), hr', add_finite, hu]

theorem Seconds_pos (d : ℤ) (h1 : 0 < d) (h2 : d < (2 : ℤ) ^ 63) :
    ∃ v : ℚ, (Seconds d : F64) = finite v ∧ (2 : ℚ) ^ (-30 : ℤ) ≤ v := by
  obtain ⟨⟨_, hs2⟩, _, hn2⟩ := tdiv_tmod_bounds d (by omega) h2
  obtain ⟨hs0, hn0, hone⟩ := tdiv_tmod_pos d h1 h2
  have hsec0 : (0 : ℚ) ≤ ((d.tdiv 1000000000 : ℤ) : ℚ) := by exact_mod_cast hs0
  have hsec : ((d.tdiv 1000000000 : ℤ) : ℚ) ≤ (2 : ℚ) ^ (34 : ℤ) := by
    have : ((d.tdiv 1000000000 : ℤ) : ℚ) ≤ (((2 : ℤ) ^ 34 : ℤ) : ℚ) := by exact_mod_cast hs2
    norm_num at this ⊢
    linarith
  have hnsec0 : (0 : ℚ) ≤ ((d.tmod 1000000000 : ℤ) : ℚ) := by exact_mod_cast hn0
  have hnsec : ((d.tmod 1000000000 : ℤ) : ℚ) ≤ (2 : ℚ) ^ (30 : ℤ) := by
    have : ((d.tmod 1000000000 : ℤ) : ℚ) ≤ (((2 : ℤ) ^ 30 : ℤ) : ℚ) := by exact_mod_cast hn2
    norm_num at this ⊢
    linarith
  have hround : ∀ q : ℚ, 0 ≤ q → round q = roundPos q := fun q hq => by
    unfold round
    rw [if_pos hq]
  obtain ⟨a, ha, ha0, hab⟩ := roundPos_le _ 34 (by norm_num) (by norm_num) hsec0 hsec
  obtain ⟨b, hb, hb0, hbb⟩ := roundPos_le _ 30 (by norm_num) (by norm_num) hnsec0 hnsec
  have hq0 : (0 : ℚ) ≤ b / 1000000000 := by positivity
  have hq1 : b / 1000000000 ≤ (2 : ℚ) ^ (1 : ℤ) := by
    rw [div_le_iff₀ (by norm_num)]
    norm_num at hbb ⊢
    linarith
  obtain ⟨r, hr, hr0, hrb⟩ := roundPos_le _ 1 (by norm_num) (by norm_num) hq0 hq1
  have hsum1 : a + r ≤ (2 : ℚ) ^ (35 : ℤ) := by
    norm_num at hab hrb ⊢
    linarith
  have hlow : (2 : ℚ) ^ (-30 : ℤ) ≤ a + r := by
    rcases hone with h | h
    · have h' : (1 : ℚ) ≤ ((d.tdiv 1000000000 : ℤ) : ℚ) := by exact_mod_cast h
      have h0 : (2 : ℚ) ^ (0 : ℤ) ≤ ((d.tdiv 1000000000 : ℤ) : ℚ) := by simpa using h'
      rcases roundPos_ge _ 0 (by norm_num) h0 with hinf | ⟨a', ha', hage⟩
      · rw [ha] at hinf
        exact F64.noConfusion hinf
      · rw [ha] at ha'
        have := F64.finite.inj ha'
        norm_num at hage ⊢
        linarith
    · have h' : (1 : ℚ) ≤ ((d.tmod 1000000000 : ℤ) : ℚ) := by exact_mod_cast h
      have h0 : (2 : ℚ) ^ (0 : ℤ) ≤ ((d.tmod 1000000000 : ℤ) : ℚ) := by simpa using h'
      have hb1 : 1 ≤ b := by
        rcases roundPos_ge _ 0 (by norm_num) h0 with hinf | ⟨b', hb', hbge⟩
        · rw [hb] at hinf
          exact F64.noConfusion hinf
        · rw [hb] at hb'
          have := F64.finite.inj hb'
          norm_num at hbge
          linarith
      have hq : (2 : ℚ) ^ (-30 : ℤ) ≤ b / 1000000000 := by
        rw [le_div_iff₀ (by norm_num)]
        norm_num
        linarith
      rcases roundPos_ge _ (-30) (by norm_num) hq with hinf | ⟨r', hr'', hrge⟩
      · rw [hr] at hinf
        exact F64.noConfusion hinf
      · rw [hr] at hr''
        have := F64.finite.inj hr''
        linarith
  obtain ⟨v, hv, hvl, _⟩ := round_between _ (-30) 35 (by norm_num) (by norm_num) hlow hsum1
  refine ⟨v, ?_, hvl⟩
  unfold Seconds
  simp only [intCast_eq, hround _ hsec0, hround _ hnsec0, ha, hb, billion_eq]
  rw [div_finite _ _ (by norm_num), hround _ hq0, hr, add_finite, hv]

theorem round_exact (q : ℚ) (e m : ℤ) (he : -1022 ≤ e) (h1 : (2 : ℚ) ^ e ≤ q)
    (h2 : q < (2 : ℚ) ^ (e + 1)) (hm : (m : ℚ) * 2 ^ (e - 52) = q)
    (hov : q < 2 ^ (1024 : ℤ)) : round q = finite q := by
  have hulp := two_zpow_pos (e - 52)
  have hdiv : q / 2 ^ (e - 52) = m := by
    rw [div_eq_iff hulp.ne']
    exact hm.symm
  exact round_eq q q e m he h1 h2 (by rw [hdiv]; linarith) (by rw [hdiv]; linarith) hm hov

theorem round_exact_neg (q : ℚ) (e m : ℤ) (he : -1022 ≤ e) (h1 : (2 : ℚ) ^ e ≤ -q)
    (h2 : -q < (2 : ℚ) ^ (e + 1)) (hm : (m : ℚ) * 2 ^ (e - 52) = -q)
    (hov : -q < 2 ^ (1024 : ℤ)) : round q = finite q := by
  have hulp := two_zpow_pos (e - 52)
  have hdiv : -q / 2 ^ (e - 52) = m := by
    rw [div_eq_iff hulp.ne']
    exact hm.symm
  exact round_neg_eq q q e m he h1 h2 (by rw [hdiv]; linarith) (by rw [hdiv]; linarith) hm hov

theorem normalizedTime_finite (now oldestTime commitTime : ℤ) (hspan : 0 < now - oldestTime)
    (hspan64 : now - oldestTime < (2 : ℤ) ^ 63) (hage : -(2 : ℤ) ^ 63 ≤ now - commitTime)
    (hage64 : now - commitTime < (2 : ℤ) ^ 63) :
    ∃ t : ℚ, (normalizedTime now oldestTime commitTime : F64) = finite t ∧
      |t| ≤ (2 : ℚ) ^ (66 : ℤ) := by
  obtain ⟨u, hu, hub⟩ := Seconds_bounded (now - commitTime) hage hage64
  obtain ⟨v, hv, hvl⟩ := Seconds_pos (now - oldestTime) hspan hspan64
  have hvpos : 0 < v := lt_of_lt_of_le (two_zpow_pos _) hvl
  have hz : |u / v| ≤ (2 : ℚ) ^ (65 : ℤ) := by
    rw [abs_div, abs_of_pos hvpos, div_le_iff₀ hvpos]
    norm_num at hub hvl ⊢
    nlinarith
  obtain ⟨z, hz', hzb⟩ := round_abs_le _ 65 (by norm_num) (by norm_num) hz
  have ht : |1 + -z| ≤ (2 : ℚ) ^ (66 : ℤ) := by
    have h1 := abs_add 1 (-z)
    rw [abs_neg, abs_one] at h1
    norm_num at hzb ⊢
    linarith
  obtain ⟨t, ht', htb⟩ := round_abs_le _ 66 (by norm_num) (by norm_num) ht
  refine ⟨t, ?_, htb⟩
  unfold normalizedTime
  rw [hu, hv, div_finite _ _ hvpos.ne', hz', one_eq, sub_finite, ht']

theorem decayWeight_finite (exp : F64 → F64)
    (hexp : ∀ x : ℚ, exp (finite x) = posInf ∨ ∃ E : ℚ, exp (finite x) = finite E ∧ 0 ≤ E)
    (t : ℚ) (ht : |t| ≤ (2 : ℚ) ^ (66 : ℤ)) :
    ∃ w : ℚ, decayWeight exp (finite t) = finite w ∧ 0 ≤ w ∧ w ≤ 1 := by
  have hp : |-12 * t| ≤ (2 : ℚ) ^ (70 : ℤ) := by
    rw [abs_mul, abs_neg]
    norm_num at ht ⊢
    linarith
  obtain ⟨p, hp', hpb⟩ := round_abs_le _ 70 (by norm_num) (by norm_num) hp
  have hx : |p + 12| ≤ (2 : ℚ) ^ (71 : ℤ) := by
    have h1 := abs_add p 12
    norm_num at hpb h1 ⊢
    linarith
  obtain ⟨x, hx', _⟩ := round_abs_le _ 71 (by norm_num) (by norm_num) hx
  have harg : (-(OfNat.ofNat 12) * finite t + OfNat.ofNat 12 : F64) = finite x := by
    rw [twelve_eq, neg_finite, mul_finite, hp', add_finite, hx']
  unfold decayWeight
  rw [harg, one_eq]
  rcases hexp x with hinf | ⟨E, hE, hE0⟩
  · rw [hinf]
    exact ⟨0, rfl, le_rfl, zero_le_one⟩
  · rw [hE, add_finite]
    have hsum : (2 : ℚ) ^ (0 : ℤ) ≤ 1 + E := by
      norm_num
      exact hE0
    have hround : round (1 + E) = roundPos (1 + E) := by
      unfold round
      rw [if_pos (by linarith)]
    rw [hround]
    rcases roundPos_ge _ 0 (by norm_num) hsum with hinf | ⟨S, hS, hSge⟩
    · rw [hinf]
      exact ⟨0, rfl, le_rfl, zero_le_one⟩
    · have hS1 : 1 ≤ S := by simpa using hSge
      rw [hS, div_finite _ _ (by linarith)]
      have hq0 : (0 : ℚ) ≤ 1 / S := by positivity
      have hq1 : 1 / S ≤ (2 : ℚ) ^ (0 : ℤ) := by
        rw [div_le_iff₀ (by linarith)]
        norm_num
        exact hS1
      have hround' : round (1 / S) = roundPos (1 / S) := by
        unfold round
        rw [if_pos hq0]
      obtain ⟨w, hw, hw0, hw1⟩ := roundPos_le _ 0 (by norm_num) (by norm_num) hq0 hq1
      exact ⟨w, by rw [hround', hw], hw0, by simpa using hw1⟩

theorem hornerExp_ge_one (y : ℚ) (hy : 0 ≤ y) (k n : ℕ) : 1 ≤ hornerExp y k n := by
  induction n generalizing k with
  | zero => simp [hornerExp]
  | succ n ih =>
    have h := ih (k + 1)
    have hk : (0 : ℚ) ≤ (k : ℚ) := Nat.cast_nonneg k
    have : 0 ≤ y / (k : ℚ) * hornerExp y (k + 1) n :=
      mul_nonneg (div_nonneg hy hk) (by linarith)
    simp only [hornerExp]
    linarith

theorem expPos_pos (x : ℚ) (hx : 0 ≤ x) : 0 < expPos x := by
  unfold expPos
  have hy : 0 ≤ x / 2 ^ (Int.log 2 x + 1).toNat := by positivity
  have := hornerExp_ge_one _ hy 1 24
  positivity

theorem expQ_pos (x : ℚ) : 0 < expQ x := by
  unfold expQ
  split_ifs with h
  · exact expPos_pos x h
  · have := expPos_pos (-x) (by linarith)
    positivity

theorem goExp_eq (x : ℚ) :
    goExp (finite x) =
      if 709782712893383973096 / 1000000000000000000 < x then posInf
      else if x < -745133219101941108420 / 1000000000000000000 then finite 0
      else round (expQ x) := rfl

theorem goExp_finite (x : ℚ) :
    goExp (finite x) = posInf ∨ ∃ E : ℚ, goExp (finite x) = finite E ∧ 0 ≤ E := by
  rw [goExp_eq]
  split_ifs
  · exact Or.inl rfl
  · exact Or.inr ⟨0, rfl, le_rfl⟩
  · have h0 := (expQ_pos x).le
    unfold round
    rw [if_pos h0]
    exact roundPos_nonneg _ h0

theorem round_int_exact (n : ℤ) (h0 : 0 ≤ n) (h : n < (2 : ℤ) ^ 53) :
    round (n : ℚ) = finite (n : ℚ) := by
  rcases h0.eq_or_lt with hz | hpos
  · rw [← hz]
    simpa using round_zero
  · have hq1 : (1 : ℚ) ≤ (n : ℚ) := by exact_mod_cast hpos
    have hq : (0 : ℚ) < (n : ℚ) := by linarith
    have he0 : 0 ≤ Int.log 2 (n : ℚ) := by
      rw [← Int.zpow_le_iff_le_log (by norm_num) hq]
      simpa using hq1
    have hlt : (n : ℚ) < (2 : ℚ) ^ (53 : ℤ) := by
      have : (n : ℚ) < (((2 : ℤ) ^ 53 : ℤ) : ℚ) := by exact_mod_cast h
      norm_num at this ⊢
      exact this
    have he53 : Int.log 2 (n : ℚ) < 53 := by
      rw [← Int.lt_zpow_iff_log_lt (by norm_num) hq]
      simpa using hlt
    have hd : 0 ≤ 52 - Int.log 2 (n : ℚ) := by omega
    refine round_exact (n : ℚ) (Int.log 2 (n : ℚ)) (n * 2 ^ (52 - Int.log 2 (n : ℚ)).toNat)
      (by omega) (zpow_log_le _ hq) (lt_zpow_log_succ _) ?_ ?_
    · have h2 := two_zpow_toNat _ hd
      push_cast at h2 ⊢
      rw [← h2, mul_assoc, ← zpow_add₀ (by norm_num)]
      norm_num
    · exact hlt.trans (zpow_lt_zpow_right₀ (by norm_num) (by norm_num))

theorem round_neg_int_exact (n : ℤ) (h0 : 0 < n) (h : n < (2 : ℤ) ^ 53) :
    round (-(n : ℚ)) = finite (-(n : ℚ)) := by
  have hq : (0 : ℚ) < (n : ℚ) := by exact_mod_cast h0
  unfold round
  rw [if_neg (by linarith), neg_neg]
  have := round_int_exact n h0.le h
  unfold round at this
  rw [if_pos hq.le] at this
  rw [this]
  rfl

theorem Seconds_whole (s : ℤ) (h0 : 0 ≤ s) (h : s < (2 : ℤ) ^ 53) :
    (Seconds (s * 1000000000) : F64) = finite (s : ℚ) := by
  unfold Seconds
  have hdiv : (s * 1000000000).tdiv 1000000000 = s :=
    Int.mul_tdiv_cancel s (by norm_num)
  have hmod : (s * 1000000000).tmod 1000000000 = 0 := Int.mul_tmod_left s 1000000000
  simp only [hdiv, hmod, intCast_eq, billion_eq, round_int_exact s h0 h]
  have hz : round ((0 : ℤ) : ℚ) = finite 0 := by simpa using round_zero
  rw [hz, div_finite _ _ (by norm_num), zero_div, round_zero, add_finite, add_zero,
    round_int_exact s h0 h]

theorem goExp_zero : goExp (finite 0) = finite 1 := by
  rw [goExp_eq, if_neg (by norm_num), if_neg (by norm_num)]
  have hexp : expQ 0 = 1 := by
    unfold expQ expPos
    simp [hornerExp]
  rw [hexp]
  simpa using round_int_exact 1 (by norm_num) (by norm_num)

theorem expQ_nine : expQ 9 = (hornerExp (9 / 16) 1 24) ^ 16 := by
  unfold expQ expPos
  rw [if_pos (by norm_num), log_two_eq 9 3 (by norm_num) (by norm_num)]
  have h4 : (3 + 1 : ℤ).toNat = 4 := rfl
  rw [h4]
  norm_num

theorem goExp_nine : goExp (finite 9) = finite (4454717499606977 / 549755813888) := by
  rw [goExp_eq, if_neg (by norm_num), if_neg (by norm_num), expQ_nine]
  simp only [hornerExp]
  exact round_eq _ _ 12 8909434999213954 (by norm_num) (by norm_num) (by norm_num)
    (by norm_num) (by norm_num) (by norm_num) (by norm_num)

theorem round_one : round 1 = finite 1 := by
  simpa using round_int_exact 1 (by norm_num) (by norm_num)

theorem normalizedTime_eval (now oldestTime commitTime a s : ℤ)
    (ha : now - commitTime = a * 1000000000) (hs : now - oldestTime = s * 1000000000)
    (ha0 : 0 ≤ a) (ha53 : a < (2 : ℤ) ^ 53) (hs0 : 0 < s) (hs53 : s < (2 : ℤ) ^ 53)
    (z t : ℚ) (hz : round ((a : ℚ) / (s : ℚ)) = finite z) (ht : round (1 + -z) = finite t) :
    (normalizedTime now oldestTime commitTime : F64) = finite t := by
  have hs' : (s : ℚ) ≠ 0 := by exact_mod_cast hs0.ne'
  unfold normalizedTime
  rw [ha, hs, Seconds_whole a ha0 ha53, Seconds_whole s hs0.le hs53, div_finite _ _ hs', hz,
    one_eq, sub_finite, ht]

theorem decayWeight_eval (t p x E S w : ℚ) (hp : round (-12 * t) = finite p)
    (hx : round (p + 12) = finite x) (hE : goExp (finite x) = finite E)
    (hS : round (1 + E) = finite S) (hS0 : S ≠ 0) (hw : round (1 / S) = finite w) :
    decayWeight goExp (finite t) = finite w := by
  unfold decayWeight
  rw [twelve_eq, neg_finite, mul_finite, hp, add_finite, hx, hE, one_eq, add_finite, hS,
    div_finite _ _ hS0, hw]

theorem decayWeight_overflow (t p x : ℚ) (hp : round (-12 * t) = finite p)
    (hx : round (p + 12) = finite x)
    (hE : 709782712893383973096 / 1000000000000000000 < x) :
    decayWeight goExp (finite t) = finite 0 := by
  unfold decayWeight
  rw [twelve_eq, neg_finite, mul_finite, hp, add_finite, hx, goExp_eq, if_pos hE]
  rfl

theorem addAll_three (a b c s₁ s₂ s₃ : ℚ) (h₁ : round (0 + a) = finite s₁)
    (h₂ : round (s₁ + b) = finite s₂) (h₃ : round (s₂ + c) = finite s₃) :
    addAll none [finite a, finite b, finite c] = some (finite s₃) := by
  simp only [addAll, Option.getD_none, Option.getD_some]
  rw [zero_eq, add_finite, h₁, add_finite, h₂, add_finite, h₃]

theorem normalizedTime_newest :
    (normalizedTime 8640000000000000 0 8640000000000000 : F64) = finite 1 := by
  refine normalizedTime_eval _ _ _ 0 8640000 (by norm_num) (by norm_num) (by norm_num)
    (by norm_num) (by norm_num) (by norm_num) 0 1 ?_ ?_
  · rw [show (((0 : ℤ) : ℚ) / ((8640000 : ℤ) : ℚ)) = 0 from by norm_num]
    exact round_zero
  · rw [show (1 + -0 : ℚ) = 1 from by norm_num]
    exact round_one

theorem normalizedTime_day25 :
    (normalizedTime 8640000000000000 0 2160000000000000 : F64) = finite (1 / 4) := by
  refine normalizedTime_eval _ _ _ 6480000 8640000 (by norm_num) (by norm_num) (by norm_num)
    (by norm_num) (by norm_num) (by norm_num) (3 / 4) (1 / 4) ?_ ?_
  · rw [show (((6480000 : ℤ) : ℚ) / ((8640000 : ℤ) : ℚ)) = 3 / 4 from by norm_num]
    exact round_exact _ (-1) 6755399441055744 (by norm_num) (by norm_num) (by norm_num)
      (by norm_num) (by norm_num)
  · rw [show (1 + -(3 / 4) : ℚ) = 1 / 4 from by norm_num]
    exact round_exact _ (-2) 4503599627370496 (by norm_num) (by norm_num) (by norm_num)
      (by norm_num) (by norm_num)

theorem normalizedTime_before_window :
    (normalizedTime 8640000000000000 8553600000000000 0 : F64) = finite (-99) := by
  refine normalizedTime_eval _ _ _ 8640000 86400 (by norm_num) (by norm_num) (by norm_num)
    (by norm_num) (by norm_num) (by norm_num) 100 (-99) ?_ ?_
  · rw [show (((8640000 : ℤ) : ℚ) / ((86400 : ℤ) : ℚ)) = ((100 : ℤ) : ℚ) from by norm_num,
      round_int_exact 100 (by norm_num) (by norm_num)]
    norm_num
  · rw [show (1 + -100 : ℚ) = -((99 : ℤ) : ℚ) from by norm_num,
      round_neg_int_exact 99 (by norm_num) (by norm_num)]
    norm_num

theorem decayWeight_before_window : decayWeight goExp (finite (-99)) = finite 0 := by
  refine decayWeight_overflow (-99) 1188 1200 ?_ ?_ (by norm_num)
  · rw [show (-12 * -99 : ℚ) = ((1188 : ℤ) : ℚ) from by norm_num,
      round_int_exact 1188 (by norm_num) (by norm_num)]
    norm_num
  · rw [show (1188 + 12 : ℚ) = ((1200 : ℤ) : ℚ) from by norm_num,
      round_int_exact 1200 (by norm_num) (by norm_num)]
    norm_num

theorem decayWeight_at_one : decayWeight goExp (finite 1) = finite (1 / 2) := by
  refine decayWeight_eval 1 (-12) 0 1 2 (1 / 2) ?_ ?_ goExp_zero ?_ (by norm_num) ?_
  · simpa using round_neg_int_exact 12 (by norm_num) (by norm_num)
  · rw [show (-12 + 12 : ℚ) = 0 from by norm_num]
    exact round_zero
  · rw [show (1 + 1 : ℚ) = ((2 : ℤ) : ℚ) from by norm_num,
      round_int_exact 2 (by norm_num) (by norm_num)]
    norm_num
  · exact round_exact _ (-1) 4503599627370496 (by norm_num) (by norm_num) (by norm_num)
      (by norm_num) (by norm_num)

theorem decayWeight_at_quarter :
    decayWeight goExp (finite (1 / 4)) =
      finite (2276228163301923 / 18446744073709551616) := by
  refine decayWeight_eval (1 / 4) (-3) 9 (4454717499606977 / 549755813888)
    (4455267255420865 / 549755813888) (2276228163301923 / 18446744073709551616)
    ?_ ?_ goExp_nine ?_ (by norm_num) ?_
  · rw [show (-12 * (1 / 4) : ℚ) = -((3 : ℤ) : ℚ) from by norm_num,
      round_neg_int_exact 3 (by norm_num) (by norm_num)]
    norm_num
  · rw [show (-3 + 12 : ℚ) = ((9 : ℤ) : ℚ) from by norm_num,
      round_int_exact 9 (by norm_num) (by norm_num)]
    norm_num
  · exact round_eq _ _ 12 8910534510841730 (by norm_num) (by norm_num) (by norm_num)
      (by norm_num) (by norm_num) (by norm_num) (by norm_num)
  · exact round_eq _ _ (-13) 4552456326603846 (by norm_num) (by norm_num) (by norm_num)
      (by norm_num) (by norm_num) (by norm_num) (by norm_num)

theorem sum_newest_first :
    addAll none [finite (1 / 2), finite (2276228163301923 / 18446744073709551616),
      finite (2276228163301923 / 18446744073709551616)] =
      some (finite (1126455626609055 / 2251799813685248)) := by
  refine addAll_three _ _ _ (1 / 2) (2252355533451679 / 4503599627370496) _ ?_ ?_ ?_
  · rw [show (0 + 1 / 2 : ℚ) = 1 / 2 from by norm_num]
    exact round_exact _ (-1) 4503599627370496 (by norm_num) (by norm_num) (by norm_num)
      (by norm_num) (by norm_num)
  · exact round_eq _ _ (-1) 4504711066903358 (by norm_num) (by norm_num) (by norm_num)
      (by norm_num) (by norm_num) (by norm_num) (by norm_num)
  · exact round_eq _ _ (-1) 4505822506436220 (by norm_num) (by norm_num) (by norm_num)
      (by norm_num) (by norm_num) (by norm_num) (by norm_num)

theorem sum_newest_last :
    addAll none [finite (2276228163301923 / 18446744073709551616),
      finite (2276228163301923 / 18446744073709551616), finite (1 / 2)] =
      some (finite (4505822506436221 / 9007199254740992)) := by
  refine addAll_three _ _ _ (2276228163301923 / 18446744073709551616)
    (2276228163301923 / 9223372036854775808) _ ?_ ?_ ?_
  · exact round_eq _ _ (-13) 4552456326603846 (by norm_num) (by norm_num) (by norm_num)
      (by norm_num) (by norm_num) (by norm_num) (by norm_num)
  · exact round_eq _ _ (-12) 4552456326603846 (by norm_num) (by norm_num) (by norm_num)
      (by norm_num) (by norm_num) (by norm_num) (by norm_num)
  · exact round_eq _ _ (-1) 4505822506436221 (by norm_num) (by norm_num) (by norm_num)
      (by norm_num) (by norm_num) (by norm_num) (by norm_num)

end F64

/-! ## The scoring loop in float64 -/

section FloatClaims

/-- C2, as stated, fails in float64: in a window of one day, a commit one
hundred days before `now` has `t = -99`, `math.Exp` overflows at `1200`, and the
weight the loop computes is exactly `0`. -/
theorem float_weight_reaches_zero :
    (0 : Int) < 8640000000000000 - 8553600000000000 ∧
    decayWeight F64.goExp (normalizedTime 8640000000000000 8553600000000000 0 : F64) =
      F64.finite 0 :=
  ⟨by norm_num, F64.normalizedTime_before_window ▸ F64.decayWeight_before_window⟩

/-- C2, amended: for every commit time and every window with positive span
(durations in the `int64` range of `time.Duration`), and for every exponential
that returns a non-negative number or `+Inf` on finite arguments, the float64
weight the loop computes is a finite number in the closed interval from 0 to 1;
it is exactly 0 whenever the exponential overflows to `+Inf`; as a real-valued
formula the weight lies strictly between 0 and 1 for every real `t`. -/
theorem float_weight_in_closed_unit_interval (exp : F64 → F64)
    (hexp : ∀ x : ℚ, exp (F64.finite x) = F64.posInf ∨
      ∃ E : ℚ, exp (F64.finite x) = F64.finite E ∧ 0 ≤ E)
    (commitTime now oldestTime : Int) (hspan : 0 < now - oldestTime)
    (hspan64 : now - oldestTime < (2 : Int) ^ 63)
    (hage : -(2 : Int) ^ 63 ≤ now - commitTime) (hage64 : now - commitTime < (2 : Int) ^ 63) :
    (∃ w : ℚ, decayWeight exp (normalizedTime now oldestTime commitTime : F64) = F64.finite w ∧
      0 ≤ w ∧ w ≤ 1) ∧
    (∀ t : F64, exp (-12 * t + 12) = F64.posInf → decayWeight exp t = F64.finite 0) ∧
    ∀ t : ℝ, 0 < decayWeight Real.exp t ∧ decayWeight Real.exp t < 1 := by
  refine ⟨?_, ?_, fun t => ⟨decayWeight_pos t, decayWeight_lt_one t⟩⟩
  · obtain ⟨t, ht, htb⟩ :=
      F64.normalizedTime_finite now oldestTime commitTime hspan hspan64 hage hage64
    rw [ht]
    exact F64.decayWeight_finite exp hexp t htb
  · intro t ht
    unfold decayWeight
    rw [ht]
    rfl

/-- Witness for the amended C2: the modelled `math.Exp` and a commit at day 25
of a 100-day window. -/
theorem float_weight_in_closed_unit_interval_witness :
    (0 : Int) < 8640000000000000 - 0 ∧
    ∃ w : ℚ, decayWeight F64.goExp (normalizedTime 8640000000000000 0 2160000000000000 : F64) =
      F64.finite w ∧ 0 ≤ w ∧ w ≤ 1 :=
  ⟨by norm_num,
    (float_weight_in_closed_unit_interval F64.goExp F64.goExp_finite 2160000000000000
      8640000000000000 0 (by norm_num) (by norm_num) (by norm_num) (by norm_num)).1⟩

theorem floatFixesPermuted_perm : floatFixesPermuted.Perm floatFixes := by
  unfold floatFixesPermuted floatFixes
  exact (List.Perm.cons _ (List.Perm.swap _ _ _)).trans (List.Perm.swap _ _ _)

/-- C7, as stated, fails in float64: in a 100-day window, the newest commit and
two commits at day 25 that all touch `A` give `A` the score
`0.5002467891519724` when the newest is scored first and `0.5002467891519725`
when it is scored last. -/
theorem float_scores_depend_on_order :
    (0 : Int) < 8640000000000000 - 0 ∧ floatFixesPermuted.Perm floatFixes ∧
    mapGet (scoreLoop F64.goExp 8640000000000000 0 floatFixes) "A" =
      some (F64.finite (1126455626609055 / 2251799813685248)) ∧
    mapGet (scoreLoop F64.goExp 8640000000000000 0 floatFixesPermuted) "A" =
      some (F64.finite (4505822506436221 / 9007199254740992)) ∧
    mapGet (scoreLoop F64.goExp 8640000000000000 0 floatFixesPermuted) "A" ≠
      mapGet (scoreLoop F64.goExp 8640000000000000 0 floatFixes) "A" := by
  have h1 : mapGet (scoreLoop F64.goExp 8640000000000000 0 floatFixes) "A" =
      some (F64.finite (1126455626609055 / 2251799813685248)) := by
    rw [mapGet_scoreLoop_addAll, floatFixes, specWeights_three, F64.normalizedTime_newest,
      F64.normalizedTime_day25, F64.decayWeight_at_one, F64.decayWeight_at_quarter]
    exact F64.sum_newest_first
  have h2 : mapGet (scoreLoop F64.goExp 8640000000000000 0 floatFixesPermuted) "A" =
      some (F64.finite (4505822506436221 / 9007199254740992)) := by
    rw [mapGet_scoreLoop_addAll, floatFixesPermuted, specWeights_three,
      F64.normalizedTime_newest, F64.normalizedTime_day25, F64.decayWeight_at_one,
      F64.decayWeight_at_quarter]
    exact F64.sum_newest_last
  refine ⟨by norm_num, ?_, h1, h2, ?_⟩
  · exact floatFixesPermuted_perm
  · rw [h1, h2]
    intro h
    have hq := F64.finite.inj (Option.some.inj h)
    norm_num at hq

/-- C7, amended: with the window bounds fixed and the span positive, scoring a
permutation of the materialized commits gives a map with the same keys, and for
every path both scores are the left-to-right sums, in the order of the fold, of
one and the same multiset of commit weights; so the scores are equal whenever
addition is exact (in every ordered field), while in float64 they agree only up
to the rounding of the additions. -/
theorem accumulation_order_independent_up_to_rounding {α : Type} [Zero α] [One α] [Add α]
    [Sub α] [Mul α] [Neg α] [Div α] [IntCast α] [OfNat α 12] [OfNat α 1000000000]
    (exp : α → α) (now oldestTime : Int) (_hspan : 0 < now - oldestTime)
    (fixes permuted : List Fix) (hperm : permuted.Perm fixes) :
    ((scoreLoop exp now oldestTime permuted).map Prod.fst).Perm
      ((scoreLoop exp now oldestTime fixes).map Prod.fst) ∧
    (∀ p : String,
      mapGet (scoreLoop exp now oldestTime permuted) p =
          addAll none (specWeights exp now oldestTime permuted p) ∧
        mapGet (scoreLoop exp now oldestTime fixes) p =
          addAll none (specWeights exp now oldestTime fixes p) ∧
        (specWeights exp now oldestTime permuted p).Perm
          (specWeights exp now oldestTime fixes p)) ∧
    ∀ (β : Type) [LinearOrderedField β] (expβ : β → β) (p : String),
      mapGet (scoreLoop expβ now oldestTime permuted) p =
        mapGet (scoreLoop expβ now oldestTime fixes) p :=
  ⟨keys_scoreLoop_perm exp now oldestTime fixes permuted hperm,
    fun p => ⟨mapGet_scoreLoop_addAll exp now oldestTime permuted p,
      mapGet_scoreLoop_addAll exp now oldestTime fixes p,
      specWeights_perm exp now oldestTime permuted fixes hperm p⟩,
    fun _ _ expβ p => (scoreLoop_perm_exact expβ now oldestTime fixes permuted hperm).1 p⟩

/-- Witness for the amended C7: the three commits of the float64 example. -/
theorem accumulation_order_independent_up_to_rounding_witness :
    (0 : Int) < 8640000000000000 - 0 ∧ floatFixesPermuted.Perm floatFixes ∧
    ((scoreLoop F64.goExp 8640000000000000 0 floatFixesPermuted).map Prod.fst).Perm
      ((scoreLoop F64.goExp 8640000000000000 0 floatFixes).map Prod.fst) :=
  ⟨by norm_num,
    floatFixesPermuted_perm,
    (accumulation_order_independent_up_to_rounding F64.goExp 8640000000000000 0
      (by norm_num) floatFixes floatFixesPermuted floatFixesPermuted_perm).1⟩

end FloatClaims

end Bugspots
